import Mathlib

/-!
Shallow embedding of the encoder-comparison repository (canonical Huffman coder
and static-model 32-bit arithmetic coder) together with proofs about the
claims of its specification.

Conventions of the embedding:
* A byte sequence is a `List ℕ` whose elements are intended to lie in `[0, 256)`.
* Python `bytes`/`int.to_bytes` writes that can raise (`OverflowError`,
  `ValueError`) are `Option`-valued (`none` models the raise).
* Python integers are `ℤ` where values can become negative (the interval
  bounds of the arithmetic coder), `ℕ` elsewhere.  Python `//` is `Int.fdiv`
  (floor division) and `x & (2^32 - 1)` is `Int.emod x (2^32)`, which agrees
  with two's-complement masking for every integer.
* Python strings of '0'/'1' characters are `List Bool`.
* Python dicts are association lists with distinct keys; assignment is
  `dictInsert` (replace in place or append), matching insertion-order
  semantics of CPython dicts.
-/

/-! ### Byte-level utilities -/

/-- `int.to_bytes(w, "big")`: `none` models the `OverflowError` raised when
the value does not fit in `w` bytes. -/
def toBytesBE (w n : ℕ) : Option (List ℕ) :=
  if n < 256 ^ w then some ((List.range w).map fun i => n / 256 ^ (w - 1 - i) % 256) else none

/-- `bytes([n])`: `none` models the `ValueError` raised when `n ≥ 256`. -/
def byte1 (n : ℕ) : Option (List ℕ) :=
  if n < 256 then some [n] else none

/-- `int.from_bytes(bs, "big")` (accepts slices of any length, like Python). -/
def fromBytesBE (l : List ℕ) : ℕ :=
  l.foldl (fun a b => a * 256 + b) 0

/-- One step of `collections.Counter`: increment the count of `b`, keeping
first-occurrence insertion order. -/
def bump (acc : List (ℕ × ℕ)) (b : ℕ) : List (ℕ × ℕ) :=
  match acc with
  | [] => [(b, 1)]
  | (k, v) :: t => if k = b then (k, v + 1) :: t else (k, v) :: bump t b

/-- `collections.Counter(data)` as an association list in first-occurrence
insertion order (the order `freq.items()` iterates in). -/
def counter (data : List ℕ) : List (ℕ × ℕ) :=
  data.foldl bump []

/-- Dictionary lookup with default `0`: used for `freq[s]` / `cum[s]` where the
key is provably present. -/
def lookup0 (d : List (ℕ × ℕ)) (s : ℕ) : ℕ :=
  (d.lookup s).getD 0

/-- CPython dict assignment `d[k] = v`: replace the value in place if the key
exists, else append. -/
def dictInsert {α β : Type} [DecidableEq α] (d : List (α × β)) (k : α) (v : β) :
    List (α × β) :=
  match d with
  | [] => [(k, v)]
  | (k', v') :: t => if k' = k then (k, v) :: t else (k', v') :: dictInsert t k v

/-! ### Bit-stream I/O (`_BitOut`, `_BitIn` of `arithmetic.py`) -/

/-- `_BitOut.put`: append `bit & 1`. -/
def bitPut (bits : List ℕ) (b : ℕ) : List ℕ :=
  bits ++ [b % 2]

/-- `_BitOut.extend`: append `n` copies of `bit & 1`. -/
def bitExtend (bits : List ℕ) (b n : ℕ) : List ℕ :=
  bits ++ List.replicate n (b % 2)

/-- Pack a 0/1 list into bytes, 8 bits per byte MSB-first (the packing loop of
`_BitOut.finish`; bits beyond a multiple of 8 are assumed already padded).
The fuel (first argument) bounds the number of produced bytes; `bits.length`
is always enough since every step consumes at least one bit. -/
def packBytesAux : ℕ → List ℕ → List ℕ
  | _, [] => []
  | 0, _ :: _ => []
  | fuel + 1, b :: rest =>
    ((b :: rest).take 8).foldl (fun a c => a * 2 + c) 0 :: packBytesAux fuel ((b :: rest).drop 8)

def packBytes (bits : List ℕ) : List ℕ :=
  packBytesAux bits.length bits

/-- `_BitOut.finish`: zero-pad to a byte boundary, then pack MSB-first. -/
def bitOutFinish (bits : List ℕ) : List ℕ :=
  packBytes (bits ++ List.replicate ((8 - bits.length % 8) % 8) 0)

/-- Expansion of a byte buffer into bits, MSB-first per byte
(the comprehension in `_BitIn.__init__`). -/
def bitsOfBytes (blob : List ℕ) : List ℕ :=
  blob.flatMap fun b => [7, 6, 5, 4, 3, 2, 1, 0].map fun i => b >>> i &&& 1

/-- `_BitIn`: an expanded bit list and a sequential read cursor. -/
structure BitIn where
  bits : List ℕ
  idx : ℕ
deriving Repr, DecidableEq

/-- `_BitIn(blob)`. -/
def mkBitIn (blob : List ℕ) : BitIn :=
  ⟨bitsOfBytes blob, 0⟩

/-- `_BitIn.get`: the next bit, or `0` (cursor unchanged) past the end. -/
def bitInGet (s : BitIn) : ℕ × BitIn :=
  if s.bits.length ≤ s.idx then (0, s)
  else (s.bits.getD s.idx 0, { s with idx := s.idx + 1 })

/-- `n` successive `_BitIn.get` calls. -/
def bitInReadN (s : BitIn) : ℕ → List ℕ × BitIn
  | 0 => ([], s)
  | k + 1 =>
    ((bitInGet s).1 :: (bitInReadN (bitInGet s).2 k).1, (bitInReadN (bitInGet s).2 k).2)

/-! ### Arithmetic coder: constants and frequency model -/

def aTOP : ℤ := 2 ^ 32
def aHALF : ℤ := 2 ^ 31
def aQTR : ℤ := 2 ^ 30

/-- Stable insertion of `a` into a sorted list: `a` goes in front of the first
element that is not `≤ a`, i.e. after every earlier element it ties with. -/
def insertLe {α : Type} (le : α → α → Bool) (a : α) : List α → List α
  | [] => [a]
  | b :: l => if le b a then b :: insertLe le a l else a :: b :: l

/-- Python's `sorted` (a stable comparison sort; stability is observable only
through ties, and every tie in this development is between identical
elements, so any stable sort has the same graph as CPython's timsort). -/
def pySorted {α : Type} (le : α → α → Bool) : List α → List α
  | [] => []
  | a :: l => insertLe le a (pySorted le l)

/-- `sorted(freq)`: the distinct symbols in ascending order. -/
def natLe (a b : ℕ) : Bool := decide (a ≤ b)

def sortedKeys (freq : List (ℕ × ℕ)) : List ℕ :=
  pySorted natLe (freq.map Prod.fst)

/-- The cumulative table and total of `ArithmeticCoder.encode` lines 89-95:
`cum[s]` is the sum of frequencies of symbols strictly below `s`. -/
def buildCum (freq : List (ℕ × ℕ)) : List (ℕ × ℕ) × ℕ :=
  let symbols := sortedKeys freq
  let cums := symbols.scanl (fun r s => r + lookup0 freq s) 0
  (symbols.zip cums, cums.getLastD 0)

/-! ### Arithmetic coder: encoder -/

structure AEncState where
  low : ℤ
  high : ℤ
  pending : ℕ
  bits : List ℕ
deriving Repr, DecidableEq

/-- The `emit` closure of `ArithmeticCoder.encode`: put `bit`, then flush any
pending bits as the complement and reset `pending`. -/
def aemit (st : AEncState) (bit : ℕ) : AEncState :=
  let bits := bitPut st.bits bit
  if st.pending ≠ 0 then
    { st with bits := bitExtend bits (bit ^^^ 1) st.pending, pending := 0 }
  else
    { st with bits := bits }

/-- Interval narrowing for one input byte (lines 110-112 of `encode`):
`low += r*cum[b] // total`, then `high = low + r*freq[b] // total - 1`
with the updated `low`. -/
def aNarrow (freq cum : List (ℕ × ℕ)) (total : ℕ) (st : AEncState) (b : ℕ) : AEncState :=
  let r : ℤ := st.high - st.low + 1
  let low : ℤ := st.low + Int.fdiv (r * (lookup0 cum b : ℤ)) (total : ℤ)
  let high : ℤ := low + Int.fdiv (r * (lookup0 freq b : ℤ)) (total : ℤ) - 1
  { st with low := low, high := high }

/-- The common shift at the bottom of the renormalization loop:
`low = (low << 1) & (TOP-1)`, `high = ((high << 1) | 1) & (TOP-1)`. -/
def aShift (st : AEncState) : AEncState :=
  { st with low := (2 * st.low).emod aTOP, high := (2 * st.high + 1).emod aTOP }

/-- The encoder's renormalization loop (lines 115-125), with fuel.  A fuel of
`64` is enough for every state the program can reach: each iteration doubles
the interval width `high - low + 1` (and a width-0 interval wraps to full
width within 32 iterations via the mask), so the loop exits within 33 steps. -/
def aRenorm : ℕ → AEncState → AEncState
  | 0, st => st
  | fuel + 1, st =>
    if st.high < aHALF then
      aRenorm fuel (aShift (aemit st 0))
    else if aHALF ≤ st.low then
      aRenorm fuel (aShift (aemit { st with low := st.low - aHALF, high := st.high - aHALF } 1))
    else if aQTR ≤ st.low ∧ st.high < 3 * aQTR then
      aRenorm fuel
        (aShift { st with low := st.low - aQTR, high := st.high - aQTR, pending := st.pending + 1 })
    else st

/-- Processing of one input byte: narrow, then renormalize. -/
def aStep (freq cum : List (ℕ × ℕ)) (total : ℕ) (st : AEncState) (b : ℕ) : AEncState :=
  aRenorm 64 (aNarrow freq cum total st b)

/-- Lines 128-129: `pending += 1; emit(0 if low < QTR else 1)`. -/
def aFinish (st : AEncState) : AEncState :=
  let st := { st with pending := st.pending + 1 }
  aemit st (if st.low < aQTR then 0 else 1)

/-- The initial interval state: `low=0, high=TOP-1, pending=0`. -/
def aInit : AEncState :=
  ⟨0, aTOP - 1, 0, []⟩

/-- `ArithmeticCoder.encode`. -/
def aEncode (data : List ℕ) : Option (List ℕ) :=
  if data = [] then some [] else
  let freq := counter data
  if freq.length = 1 then
    match freq with
    | [] => none
    | (sym, _) :: _ => do
      let symB ← byte1 sym
      let n4 ← toBytesBE 4 data.length
      pure ([82, 85, 78] ++ symB ++ n4)
  else
    let symbols := sortedKeys freq
    let cumTot := buildCum freq
    let cum := cumTot.1
    let total := cumTot.2
    let st := data.foldl (aStep freq cum total) aInit
    let codeBits := bitOutFinish (aFinish st).bits
    do
      let n4 ← toBytesBE 4 data.length
      let cnt ← byte1 symbols.length
      let hdr ← symbols.foldlM (fun acc s => do
        let sB ← byte1 s
        let fB ← toBytesBE 4 (lookup0 freq s)
        pure (acc ++ sB ++ fB)) ([] : List ℕ)
      pure (n4 ++ cnt ++ hdr ++ codeBits)

/-! ### Arithmetic coder: decoder -/

structure ADecState where
  low : ℤ
  high : ℤ
  code : ℤ
  bin : BitIn
deriving Repr, DecidableEq

/-- The decoder's shift: as `aShift`, plus
`code = ((code << 1) | bitin.get()) & (TOP-1)`. -/
def aDShift (st : ADecState) : ADecState :=
  let g := bitInGet st.bin
  { low := (2 * st.low).emod aTOP,
    high := (2 * st.high + 1).emod aTOP,
    code := (2 * st.code + (g.1 : ℤ)).emod aTOP,
    bin := g.2 }

/-- The decoder's renormalization loop (lines 190-201), with fuel as in
`aRenorm`. -/
def aDRenorm : ℕ → ADecState → ADecState
  | 0, st => st
  | fuel + 1, st =>
    if st.high < aHALF then
      aDRenorm fuel (aDShift st)
    else if aHALF ≤ st.low then
      aDRenorm fuel
        (aDShift { st with low := st.low - aHALF, high := st.high - aHALF, code := st.code - aHALF })
    else if aQTR ≤ st.low ∧ st.high < 3 * aQTR then
      aDRenorm fuel
        (aDShift { st with low := st.low - aQTR, high := st.high - aQTR, code := st.code - aQTR })
    else st

/-- Interval narrowing in the decoder (lines 186-187), identical formulas to
the encoder's. -/
def aDNarrow (freq cum : List (ℕ × ℕ)) (total : ℕ) (st : ADecState) (s : ℕ) : ADecState :=
  let r : ℤ := st.high - st.low + 1
  let low : ℤ := st.low + Int.fdiv (r * (lookup0 cum s : ℤ)) (total : ℤ)
  let high : ℤ := low + Int.fdiv (r * (lookup0 freq s : ℤ)) (total : ℤ) - 1
  { st with low := low, high := high }

/-- `for s in symbols: if ...: break` with the loop variable left at the last
element when no test fires; `none` models the `NameError` when `symbols` is
empty and the body never ran. -/
def pyScan (symbols : List ℕ) (p : ℕ → Bool) : Option ℕ :=
  match symbols with
  | [] => none
  | _ =>
    match symbols.find? p with
    | some s => some s
    | none => symbols.getLast?

/-- The decoder's symbol loop (lines 177-201): produce `n` symbols.  `none`
models the exceptions Python can raise on malformed headers
(`ZeroDivisionError` when the interval width is zero, `NameError` when the
symbol list is empty). -/
def aDLoop (symbols : List ℕ) (freq cum : List (ℕ × ℕ)) (total : ℕ) :
    ℕ → ADecState → Option (List ℕ)
  | 0, _ => some []
  | k + 1, st => do
    let r : ℤ := st.high - st.low + 1
    if r = 0 then none else
    let scaled : ℤ := Int.fdiv ((st.code - st.low + 1) * (total : ℤ) - 1) r
    let s ← pyScan symbols
      (fun s => decide (((lookup0 cum s : ℤ) + (lookup0 freq s : ℤ) > scaled) ∧
                        (scaled ≥ (lookup0 cum s : ℤ))))
    let st' := aDRenorm 64 (aDNarrow freq cum total st s)
    let rest ← aDLoop symbols freq cum total k st'
    pure (s :: rest)

/-- Header parsing of `ArithmeticCoder.decode` (lines 156-160): `sc` records
of one symbol byte (`mv[i]`, raising on overrun) and a 4-byte big-endian
frequency (a slice, which truncates silently). -/
def readSFPairs (blob : List ℕ) : ℕ → ℕ → Option (List (ℕ × ℕ))
  | _, 0 => some []
  | i, k + 1 => do
    let s ← blob.get? i
    let f := fromBytesBE ((blob.drop (i + 1)).take 4)
    let rest ← readSFPairs blob (i + 5) k
    pure ((s, f) :: rest)

/-- The decoder's cumulative table (lines 162-165), built over
`sorted(symbols)` with dict-assignment semantics. -/
def aDecodeCum (symbols : List ℕ) (freq : List (ℕ × ℕ)) : List (ℕ × ℕ) :=
  (((pySorted natLe symbols).foldl
    (fun (acc : List (ℕ × ℕ) × ℕ) s =>
      (dictInsert acc.1 s acc.2, acc.2 + lookup0 freq s)) ([], 0))).1

/-- `ArithmeticCoder.decode`. -/
def aDecode (blob : List ℕ) : Option (List ℕ) :=
  if blob = [] then some [] else
  if blob.take 3 = [82, 85, 78] then do
    let sym ← blob.get? 3
    let _ ← byte1 sym
    let n := fromBytesBE ((blob.drop 4).take 4)
    pure (List.replicate n sym)
  else do
    let n := fromBytesBE (blob.take 4)
    let sc ← blob.get? 4
    let pairs ← readSFPairs blob 5 sc
    let symbols := pairs.map Prod.fst
    let freq := pairs.foldl (fun acc p => dictInsert acc p.1 p.2) []
    let total := pairs.foldl (fun acc p => acc + p.2) 0
    let cum := aDecodeCum symbols freq
    let bin0 := mkBitIn (blob.drop (5 + 5 * sc))
    let r32 := bitInReadN bin0 32
    let code0 : ℤ := r32.1.foldl (fun c b => 2 * c + (b : ℤ)) 0
    let st0 : ADecState := ⟨0, aTOP - 1, code0, r32.2⟩
    let out ← aDLoop symbols freq cum total n st0
    if out.all (fun s => s < 256) then pure out else none

/-! ### Huffman coder: tree nodes and CPython `heapq` -/

/-- `_Node` of `huffman.py`: every constructed node is either a leaf
(`_Node(f, s)`) or an internal node with two children (`_Node(f, None, l, r)`). -/
inductive HTree where
  | leaf : ℕ → ℕ → HTree
  | branch : ℕ → HTree → HTree → HTree
deriving Repr, DecidableEq

def HTree.freq : HTree → ℕ
  | leaf f _ => f
  | branch f _ _ => f

/-- The second comparison key of `_Node.__lt__`: `self.symbol or -1`.
Python truthiness sends both `None` and the symbol `0` to `-1`. -/
def HTree.symKey : HTree → ℤ
  | leaf _ s => if s = 0 then -1 else (s : ℤ)
  | branch _ _ _ => -1

/-- `_Node.__lt__`: lexicographic comparison of `(freq, symbol or -1)`. -/
def nodeLtB (a b : HTree) : Bool :=
  decide (a.freq < b.freq ∨ (a.freq = b.freq ∧ a.symKey < b.symKey))

/-- Dummy node for in-range list indexing. -/
def hDflt : HTree := HTree.leaf 0 0

/-- The inner `while` of CPython `heapq._siftdown`: move parents down until
`newitem` is not smaller than its parent.  The fuel bounds the number of
iterations; `pos` iterations always suffice since the position strictly
decreases, and when the fuel runs out the position is `0`, where the loop
would stop anyway, so the fuel never changes the result. -/
def siftdownLoop (newitem : HTree) (startpos : ℕ) : ℕ → List HTree → ℕ → List HTree × ℕ
  | 0, heap, pos => (heap, pos)
  | fuel + 1, heap, pos =>
    if startpos < pos then
      let parentpos := (pos - 1) / 2
      let parent := heap.getD parentpos hDflt
      if nodeLtB newitem parent then
        siftdownLoop newitem startpos fuel (heap.set pos parent) parentpos
      else (heap, pos)
    else (heap, pos)

/-- CPython `heapq._siftdown heap startpos pos`. -/
def siftdown (heap : List HTree) (startpos pos : ℕ) : List HTree :=
  let newitem := heap.getD pos hDflt
  let hp := siftdownLoop newitem startpos pos heap pos
  hp.1.set hp.2 newitem

/-- The inner `while` of CPython `heapq._siftup`: bubble the smaller child up
until reaching a leaf position.  The fuel bounds the iterations; the position
strictly increases below `heap.length`, so `heap.length` iterations always
suffice and the fuel never changes the result. -/
def siftupLoop : ℕ → List HTree → ℕ → List HTree × ℕ
  | 0, heap, pos => (heap, pos)
  | fuel + 1, heap, pos =>
    let endpos := heap.length
    let childpos := 2 * pos + 1
    if childpos < endpos then
      let rightpos := childpos + 1
      let childpos' :=
        if rightpos < endpos ∧ ¬ nodeLtB (heap.getD childpos hDflt) (heap.getD rightpos hDflt)
        then rightpos else childpos
      siftupLoop fuel (heap.set pos (heap.getD childpos' hDflt)) childpos'
    else (heap, pos)

/-- CPython `heapq._siftup heap pos`. -/
def siftup (heap : List HTree) (pos : ℕ) : List HTree :=
  let newitem := heap.getD pos hDflt
  let hp := siftupLoop heap.length heap pos
  siftdown (hp.1.set hp.2 newitem) pos hp.2

/-- CPython `heapq.heappush`. -/
def heappush (heap : List HTree) (item : HTree) : List HTree :=
  siftdown (heap ++ [item]) 0 heap.length

/-- CPython `heapq.heappop`; `none` models the `IndexError` on an empty heap. -/
def heappop (heap : List HTree) : Option (HTree × List HTree) :=
  match heap.getLast? with
  | none => none
  | some lastelt =>
    let rest := heap.dropLast
    if rest = [] then some (lastelt, [])
    else some (rest.getD 0 hDflt, siftup (rest.set 0 lastelt) 0)

/-! ### Huffman coder: tree construction and canonical codes -/

/-- The initial node array of `_build_tree`: a list comprehension over
`freq.items()` in first-occurrence order — note: never heapified. -/
def initialHeap (freq : List (ℕ × ℕ)) : List HTree :=
  freq.map fun p => HTree.leaf p.2 p.1

/-- The line `heappush(heap, heappop(heap))` of `_build_tree`. -/
def hfixHeap (heap : List HTree) : Option (List HTree) := do
  let p ← heappop heap
  pure (heappush p.2 p.1)

/-- The merge loop of `_build_tree`; the fuel (one unit per merge) is the heap
length, which strictly exceeds the number of merges. -/
def buildTreeAux : ℕ → List HTree → Option HTree
  | 0, heap => heap.head?
  | fuel + 1, heap =>
    if heap.length ≤ 1 then heap.head?
    else do
      let p1 ← heappop heap
      let p2 ← heappop p1.2
      buildTreeAux fuel (heappush p2.2 (HTree.branch (p1.1.freq + p2.1.freq) p1.1 p2.1))

/-- `HuffmanCoder._build_tree`. -/
def buildTree (freq : List (ℕ × ℕ)) : Option HTree := do
  let h1 ← hfixHeap (initialHeap freq)
  buildTreeAux h1.length h1

/-- `HuffmanCoder._build_code_map`: depth-first code assignment, `0` on the
left, `1` on the right, `[false]` (the string `0`) for a bare-leaf root.
The `dict.update` calls concatenate; the leaf symbols are distinct, so this
matches dict-merge semantics. -/
def buildCodeMap : HTree → List Bool → List (ℕ × List Bool)
  | HTree.leaf _ s, p => [(s, if p = [] then [false] else p)]
  | HTree.branch _ l r, p => buildCodeMap l (p ++ [false]) ++ buildCodeMap r (p ++ [true])

/-- Minimal-width binary of `n` as a bit string, MSB first; the fuel
(`n` itself suffices, since the value at least halves) never changes the
result. -/
def natBitsAux : ℕ → ℕ → List Bool
  | _, 0 => []
  | 0, _ + 1 => []
  | fuel + 1, n + 1 => natBitsAux fuel ((n + 1) / 2) ++ [decide ((n + 1) % 2 = 1)]

def natBits (n : ℕ) : List Bool :=
  natBitsAux n n

/-- `f"{n:b}"`: Python prints `0` as one character. -/
def binStr (n : ℕ) : List Bool :=
  if n = 0 then [false] else natBits n

/-- `f"{code:0{ln}b}"`: zero-pad on the left to width `ln`; a value needing
more than `ln` bits is NOT truncated. -/
def fmtBinPad (code ln : ℕ) : List Bool :=
  List.replicate (ln - (binStr code).length) false ++ binStr code

/-- Ordering key of `_to_canonical`: `(lengths[s], s)` compared
lexicographically (Python tuple order). -/
def symKeyLe (lengths : List (ℕ × ℕ)) (a b : ℕ) : Bool :=
  decide (lookup0 lengths a < lookup0 lengths b ∨
          (lookup0 lengths a = lookup0 lengths b ∧ a ≤ b))

/-- The canonical-code assignment loop of `_to_canonical`
(`code <<= (ln - prev_len); assign; code += 1`).  The input is sorted, so
`ln - prev_len` is never negative (Python would raise on a negative shift). -/
def canonLoop : List (ℕ × ℕ) → ℕ → ℕ → List (ℕ × List Bool)
  | [], _, _ => []
  | (sym, ln) :: rest, code, prevLen =>
    let code := code <<< (ln - prevLen)
    (sym, fmtBinPad code ln) :: canonLoop rest (code + 1) ln

/-- `HuffmanCoder._to_canonical`: returns the canonical map (insertion order =
sorted order; keys distinct, so a plain list matches dict semantics) and the
lengths dict. -/
def toCanonical (codeMap : List (ℕ × List Bool)) : List (ℕ × List Bool) × List (ℕ × ℕ) :=
  let lengths := codeMap.map fun p => (p.1, p.2.length)
  let order := pySorted (symKeyLe lengths) (codeMap.map Prod.fst)
  (canonLoop (order.map fun s => (s, lookup0 lengths s)) 0 0, lengths)

/-- `bytes([a, b])`. -/
def byte2 (a b : ℕ) : Option (List ℕ) :=
  if a < 256 ∧ b < 256 then some [a, b] else none

/-- `HuffmanCoder._pack_bits`: 8 bits per byte MSB-first, last chunk
zero-padded on the right (`ljust(8, "0")`); fuel as in `packBytesAux`. -/
def packBitsAux : ℕ → List Bool → List ℕ
  | _, [] => []
  | 0, _ :: _ => []
  | fuel + 1, b :: rest =>
    (((b :: rest).take 8 ++ List.replicate (8 - ((b :: rest).take 8).length) false).foldl
      (fun a c => a * 2 + cond c 1 0) 0) :: packBitsAux fuel ((b :: rest).drop 8)

def packBits (bits : List Bool) : List ℕ :=
  packBitsAux bits.length bits

/-- `HuffmanCoder.encode`. -/
def hEncode (data : List ℕ) : Option (List ℕ) :=
  if data = [] then some [] else
  let freq := counter data
  if freq.length = 1 then
    match freq with
    | [] => none
    | (sym, _) :: _ => do
      let symB ← byte1 sym
      let n4 ← toBytesBE 4 data.length
      pure ([82, 85, 78] ++ symB ++ n4)
  else do
    let root ← buildTree freq
    let rawMap := buildCodeMap root []
    let ct := toCanonical rawMap
    let canon := ct.1
    let lengths := ct.2
    let n4 ← toBytesBE 4 data.length
    let cnt ← byte1 canon.length
    let pairs ← canon.foldlM (fun acc p => do
      let pb ← byte2 p.1 (lookup0 lengths p.1)
      pure (acc ++ pb)) ([] : List ℕ)
    let codeBits := canon.foldl (fun acc p => acc ++ p.2) ([] : List Bool)
    let cb2 ← toBytesBE 2 codeBits.length
    let payloadBits ← data.foldlM (fun acc b => do
      let c ← canon.lookup b
      pure (acc ++ c)) ([] : List Bool)
    let pb4 ← toBytesBE 4 payloadBits.length
    pure (n4 ++ cnt ++ pairs ++ cb2 ++ packBits codeBits ++ pb4 ++ packBits payloadBits)

/-! ### Huffman coder: decoder -/

/-- Header parsing of `HuffmanCoder.decode` lines 104-107: `leaf_cnt`
alternating (symbol, length) bytes, single-index reads that raise on
overrun. -/
def readPairs (blob : List ℕ) : ℕ → ℕ → Option (List (ℕ × ℕ))
  | _, 0 => some []
  | i, k + 1 => do
    let s ← blob.get? i
    let l ← blob.get? (i + 1)
    let rest ← readPairs blob (i + 2) k
    pure ((s, l) :: rest)

/-- Sort key of `decode` line 118: `(x[1], x[0])` on (symbol, length) pairs. -/
def pairLe (p q : ℕ × ℕ) : Bool :=
  decide (p.2 < q.2 ∨ (p.2 = q.2 ∧ p.1 ≤ q.1))

/-- The table-reconstruction loop of `decode` lines 115-123, with the
conditional shift `if ln != prev_len: code <<= (ln - prev_len)` and dict
assignment `table[...] = sym`. -/
def decTableLoop : List (ℕ × ℕ) → ℕ → ℕ → List (List Bool × ℕ) → List (List Bool × ℕ)
  | [], _, _, table => table
  | (sym, ln) :: rest, code, prevLen, table =>
    let code := if ln ≠ prevLen then code <<< (ln - prevLen) else code
    decTableLoop rest (code + 1) ln (dictInsert table (fmtBinPad code ln) sym)

/-- The code-to-symbol table `HuffmanCoder.decode` rebuilds from a blob's
header (the (symbol, length) pairs re-sorted by `(length, symbol)`); the
serialized canonical-bit-pattern blob is not an input of this computation. -/
def decodeTable (blob : List ℕ) : Option (List (List Bool × ℕ)) := do
  let leafCnt ← blob.get? 4
  let pairs ← readPairs blob 5 leafCnt
  pure (decTableLoop (pySorted pairLe pairs) 0 0 [])

/-- `f"{b:08b}"` join: expansion of payload bytes into bits. -/
def bitsOfBytesB (bytes : List ℕ) : List Bool :=
  bytes.flatMap fun b => fmtBinPad b 8

/-- The payload bit loop of `decode` lines 130-137: accumulate a candidate
bit string, emit on the first table hit, stop at `orig_len` symbols. -/
def decBitsLoop (table : List (List Bool × ℕ)) (origLen : ℕ) :
    List Bool → List ℕ → List Bool → List ℕ
  | [], out, _ => out
  | bit :: bits, out, cur =>
    let cur := cur ++ [bit]
    match table.lookup cur with
    | some sym =>
      let out := out ++ [sym]
      if out.length = origLen then out
      else decBitsLoop table origLen bits out []
    | none => decBitsLoop table origLen bits out cur

/-- `HuffmanCoder.decode`. -/
def hDecode (blob : List ℕ) : Option (List ℕ) :=
  if blob = [] then some [] else
  if blob.take 3 = [82, 85, 78] then do
    let sym ← blob.get? 3
    let _ ← byte1 sym
    pure (List.replicate (fromBytesBE ((blob.drop 4).take 4)) sym)
  else do
    let origLen := fromBytesBE (blob.take 4)
    let leafCnt ← blob.get? 4
    let pairs ← readPairs blob 5 leafCnt
    let i := 5 + 2 * leafCnt
    let canonLenBits := fromBytesBE ((blob.drop i).take 2)
    let canonBytes := (canonLenBits + 7) / 8
    let table := decTableLoop (pySorted pairLe pairs) 0 0 []
    let j := i + 2 + canonBytes
    let payloadLenBits := fromBytesBE ((blob.drop j).take 4)
    let payloadBytes := (payloadLenBits + 7) / 8
    let payloadBits := (bitsOfBytesB ((blob.drop (j + 4)).take payloadBytes)).take payloadLenBits
    let out := decBitsLoop table origLen payloadBits [] []
    if out.all (fun s => s < 256) then pure out else none

/-! ### Derived views of Huffman trees (used only in proofs and claims) -/

/-- The symbols at the leaves of a tree, left to right. -/
def tleaves : HTree → List ℕ
  | HTree.leaf _ s => [s]
  | HTree.branch _ l r => tleaves l ++ tleaves r

/-- The depth of each leaf, in the same left-to-right order as `tleaves`. -/
def tdepths : HTree → List ℕ
  | HTree.leaf _ _ => [0]
  | HTree.branch _ l r => (tdepths l).map (· + 1) ++ (tdepths r).map (· + 1)

/-- The Kraft sum `Σ (1/2)^d` of a list of code lengths. -/
def kraftQ (ds : List ℕ) : ℚ :=
  (ds.map (fun d => ((1 : ℚ) / 2) ^ d)).sum

/-- One bit string is a (not necessarily proper) initial segment of another. -/
def listPref {α : Type} (a b : List α) : Prop :=
  ∃ t, a ++ t = b

/-- Fixed-width little-step binary writer: the `l` low bits of `c`, MSB first.
For `c < 2^l` this is the zero-padded width-`l` binary string. -/
def padBits : ℕ → ℕ → List Bool
  | _, 0 => []
  | c, l + 1 => padBits (c / 2) l ++ [decide (c % 2 = 1)]

/-- Ghost numeric view of `canonLoop`: the integer code assigned to each
symbol, before formatting. -/
def canonCodes : List (ℕ × ℕ) → ℕ → ℕ → List (ℕ × ℕ × ℕ)
  | [], _, _ => []
  | (sym, ln) :: rest, code, prevLen =>
    let code := code <<< (ln - prevLen)
    (sym, code, ln) :: canonCodes rest (code + 1) ln

/-! ### Definitions used by the claim statements -/

/-- The interval invariant of the arithmetic coder's specification:
`0 ≤ low ≤ high ≤ 2^32 - 1`. -/
def aInv (low high : ℤ) : Prop :=
  0 ≤ low ∧ low ≤ high ∧ high < aTOP

instance aInvDecidable (low high : ℤ) : Decidable (aInv low high) := by
  unfold aInv
  infer_instance

/-- The three tables the arithmetic encoder derives from its input. -/
def aTables (data : List ℕ) : List (ℕ × ℕ) × List (ℕ × ℕ) × ℕ :=
  let freq := counter data
  (freq, (buildCum freq).1, (buildCum freq).2)

/-- The sequence of interval states of the arithmetic encoder: the initial
state followed by the state after each processed byte (narrow + renormalize). -/
def aEncStates (freq cum : List (ℕ × ℕ)) (total : ℕ) (data : List ℕ) : List AEncState :=
  data.scanl (aStep freq cum total) aInit

/-- The sequence of interval states of the arithmetic decoder's symbol loop,
mirroring `aDLoop` (stopping where `aDLoop` would raise). -/
def aDLoopStates (symbols : List ℕ) (freq cum : List (ℕ × ℕ)) (total : ℕ) :
    ℕ → ADecState → List ADecState
  | 0, st => [st]
  | k + 1, st =>
    st ::
      (if st.high - st.low + 1 = 0 then []
       else
        match pyScan symbols
          (fun s =>
            decide (((lookup0 cum s : ℤ) + (lookup0 freq s : ℤ) >
                Int.fdiv ((st.code - st.low + 1) * (total : ℤ) - 1) (st.high - st.low + 1)) ∧
              (Int.fdiv ((st.code - st.low + 1) * (total : ℤ) - 1) (st.high - st.low + 1) ≥
                (lookup0 cum s : ℤ)))) with
        | none => []
        | some s => aDLoopStates symbols freq cum total k (aDRenorm 64 (aDNarrow freq cum total st s)))

/-- Concrete input refuting claim C5: two bookkeeping symbols in front of two
long runs; total `2^31` exceeds the quarter-range `2^30`. -/
def c5data : List ℕ :=
  [1, 2] ++ List.replicate 2 0 ++ List.replicate (2 ^ 30 - 2) 1 ++ List.replicate (2 ^ 30 - 2) 3

/-- Concrete input refuting claim C6: the `Counter` first-occurrence order
`[5, 4, 9, 3, 8, 1, 1]` of frequencies is not a valid heap and the single
`heappush(heappop(heap))` does not repair it. -/
def c6data : List ℕ :=
  List.replicate 5 1 ++ List.replicate 4 2 ++ List.replicate 9 3 ++ List.replicate 3 4 ++
  List.replicate 8 5 ++ [6] ++ [7]

/-- The first two `heappop` extractions of `_build_tree`'s merge loop:
their frequencies and the frequencies remaining in the heap. -/
def firstTwoPops (heap : List HTree) : Option (ℕ × ℕ × List ℕ) := do
  let p1 ← heappop heap
  let p2 ← heappop p1.2
  pure (p1.1.freq, p2.1.freq, p2.2.map HTree.freq)

/-! ### Basic lemmas about association lists and `counter` -/

theorem lookup_cons {β : Type} (s k : ℕ) (v : β) (t : List (ℕ × β)) :
    List.lookup s ((k, v) :: t) = if s = k then some v else List.lookup s t := by
  by_cases h : s = k
  · subst h
    simp [List.lookup]
  · have hb : (s == k) = false := by simpa using h
    simp [List.lookup, hb, h]

theorem lookup0_cons (s k v : ℕ) (t : List (ℕ × ℕ)) :
    lookup0 ((k, v) :: t) s = if s = k then v else lookup0 t s := by
  rw [lookup0, lookup_cons]
  split <;> rfl

theorem lookup0_bump (acc : List (ℕ × ℕ)) (b s : ℕ) :
    lookup0 (bump acc b) s = lookup0 acc s + (if b = s then 1 else 0) := by
  induction acc with
  | nil =>
    by_cases h : b = s
    · subst h
      simp [bump, lookup0, lookup_cons]
    · have h' : ¬ s = b := fun hh => h hh.symm
      simp [bump, lookup0, lookup_cons, h, h']
  | cons p t ih =>
    obtain ⟨k, v⟩ := p
    by_cases hk : k = b
    · subst hk
      rw [show bump ((k, v) :: t) k = (k, v + 1) :: t from by simp [bump]]
      rw [lookup0_cons, lookup0_cons]
      by_cases h : s = k
      · simp [h]
      · have h' : ¬ k = s := fun hh => h hh.symm
        simp [h, h']
    · rw [show bump ((k, v) :: t) b = (k, v) :: bump t b from by simp [bump, hk]]
      rw [lookup0_cons, lookup0_cons]
      by_cases h : s = k
      · subst h
        have h' : ¬ b = s := fun hh => hk hh.symm
        simp [h']
      · simp [h, ih]

theorem lookup0_foldl_bump (l : List ℕ) (acc : List (ℕ × ℕ)) (s : ℕ) :
    lookup0 (List.foldl bump acc l) s = lookup0 acc s + l.count s := by
  induction l generalizing acc with
  | nil => simp
  | cons b t ih =>
    rw [List.foldl_cons, ih, lookup0_bump, List.count_cons]
    have : (b == s) = (if b = s then true else false) := by
      by_cases h : b = s <;> simp [h]
    rw [this]
    by_cases h : b = s
    · simp [h]
      omega
    · simp [h]

/-- `Counter` counts occurrences: `freq[s] = data.count s`. -/
theorem lookup0_counter (data : List ℕ) (s : ℕ) :
    lookup0 (counter data) s = data.count s := by
  simpa [counter, lookup0, List.lookup] using lookup0_foldl_bump data [] s

theorem keys_bump_of_mem (acc : List (ℕ × ℕ)) (b : ℕ) (h : b ∈ acc.map Prod.fst) :
    (bump acc b).map Prod.fst = acc.map Prod.fst := by
  induction acc with
  | nil => simp at h
  | cons p t ih =>
    obtain ⟨k, v⟩ := p
    by_cases hk : k = b
    · simp [bump, hk]
    · have : b ∈ t.map Prod.fst := by
        rcases (by simpa using h) with h1 | h1
        · exact absurd h1.symm hk
        · simpa using h1
      simp [bump, hk, ih this]

theorem keys_bump_of_not_mem (acc : List (ℕ × ℕ)) (b : ℕ) (h : b ∉ acc.map Prod.fst) :
    (bump acc b).map Prod.fst = acc.map Prod.fst ++ [b] := by
  induction acc with
  | nil => simp [bump]
  | cons p t ih =>
    obtain ⟨k, v⟩ := p
    have hk : k ≠ b := by
      intro hh
      exact h (by simp [hh])
    have ht : b ∉ t.map Prod.fst := fun hh => h (by simp [hh])
    simp [bump, hk, ih ht]

theorem mem_keys_bump (acc : List (ℕ × ℕ)) (b s : ℕ) :
    s ∈ (bump acc b).map Prod.fst ↔ s ∈ acc.map Prod.fst ∨ s = b := by
  by_cases h : b ∈ acc.map Prod.fst
  · rw [keys_bump_of_mem acc b h]
    constructor
    · exact Or.inl
    · rintro (hs | rfl)
      · exact hs
      · exact h
  · rw [keys_bump_of_not_mem acc b h]
    simp

theorem nodup_keys_bump (acc : List (ℕ × ℕ)) (b : ℕ)
    (h : (acc.map Prod.fst).Nodup) : ((bump acc b).map Prod.fst).Nodup := by
  by_cases hm : b ∈ acc.map Prod.fst
  · rwa [keys_bump_of_mem acc b hm]
  · rw [keys_bump_of_not_mem acc b hm]
    rw [List.nodup_append]
    refine ⟨h, List.nodup_singleton b, ?_⟩
    intro x hx hx1
    simp at hx1
    subst hx1
    exact hm hx

theorem mem_keys_foldl_bump (l : List ℕ) (acc : List (ℕ × ℕ)) (s : ℕ) :
    s ∈ (List.foldl bump acc l).map Prod.fst ↔ s ∈ acc.map Prod.fst ∨ s ∈ l := by
  induction l generalizing acc with
  | nil => simp
  | cons b t ih =>
    rw [List.foldl_cons, ih, mem_keys_bump]
    constructor
    · rintro (⟨h1 | h1⟩ | h1)
      · exact Or.inl h1
      · exact Or.inr (by simp [h1])
      · exact Or.inr (by simp [h1])
    · rintro (h1 | h1)
      · exact Or.inl (Or.inl h1)
      · rcases (by simpa using h1 : s = b ∨ s ∈ t) with h2 | h2
        · exact Or.inl (Or.inr h2)
        · exact Or.inr h2

theorem nodup_keys_foldl_bump (l : List ℕ) (acc : List (ℕ × ℕ))
    (h : (acc.map Prod.fst).Nodup) : ((List.foldl bump acc l).map Prod.fst).Nodup := by
  induction l generalizing acc with
  | nil => exact h
  | cons b t ih => exact ih _ (nodup_keys_bump acc b h)

/-- The keys of `Counter(data)` are exactly the distinct symbols of `data`. -/
theorem mem_keys_counter (data : List ℕ) (s : ℕ) :
    s ∈ (counter data).map Prod.fst ↔ s ∈ data := by
  simpa [counter] using mem_keys_foldl_bump data [] s

theorem nodup_keys_counter (data : List ℕ) : ((counter data).map Prod.fst).Nodup := by
  simpa [counter] using nodup_keys_foldl_bump data [] (by simp)

/-! ### Claim C9: empty input -/

/-- C9: for both coders, `encode` of the empty byte sequence returns the empty
byte sequence and `decode` of the empty byte sequence returns the empty byte
sequence, without raising. -/
theorem claim9_empty_in_empty_out :
    hEncode [] = some [] ∧ hDecode [] = some [] ∧
    aEncode [] = some [] ∧ aDecode [] = some [] :=
  ⟨rfl, rfl, rfl, rfl⟩

/-! ### Claim C2: the arithmetic encoder's narrowing and finalization -/

/-- C2: in the arithmetic encoder, for each input byte `b` with
`r = high - low + 1`, narrowing sets `low` to `low + ⌊r·cum[b]/total⌋` and
`high` to that updated low plus `⌊r·freq[b]/total⌋ - 1`, by exact floor
division, touching nothing else; and finalization increments `pending` once
more and emits a single final bit — `0` if `low < 2^30` and `1` otherwise —
followed by the flushed pending bits as that bit's complement. -/
theorem claim2_narrow_formulas_and_final_bit
    (freq cum : List (ℕ × ℕ)) (total : ℕ) (st : AEncState) (b : ℕ) :
    (aNarrow freq cum total st b).low =
        st.low + Int.fdiv ((st.high - st.low + 1) * (lookup0 cum b : ℤ)) (total : ℤ) ∧
    (aNarrow freq cum total st b).high =
        (st.low + Int.fdiv ((st.high - st.low + 1) * (lookup0 cum b : ℤ)) (total : ℤ)) +
          Int.fdiv ((st.high - st.low + 1) * (lookup0 freq b : ℤ)) (total : ℤ) - 1 ∧
    (aNarrow freq cum total st b).pending = st.pending ∧
    (aNarrow freq cum total st b).bits = st.bits ∧
    aFinish st =
      { st with pending := 0,
                bits := st.bits ++ [if st.low < aQTR then 0 else 1] ++
                  List.replicate (st.pending + 1) (1 - (if st.low < aQTR then 0 else 1)) } := by
  refine ⟨rfl, rfl, rfl, rfl, ?_⟩
  by_cases h : st.low < aQTR <;>
    simp [aFinish, aemit, bitPut, bitExtend, h]

/-! ### Claim C6: the Huffman tree build does not extract the two lowest nodes -/

/-- C6 (refutation by evaluation): on `c6data` the initial node array (in
`Counter` first-occurrence order, never heapified) still violates the heap
property after the single `heappush(heappop(heap))`; the first merge then
extracts nodes of frequencies 1 and 4 even though two nodes of frequency 1
exist.  Additionally, `_Node.__lt__` maps a leaf with symbol 0 to the same
sentinel key `-1` as an internal node (`symbol or -1`), so an internal node
does not sort strictly before an equal-frequency symbol-0 leaf. -/
theorem claim6_not_two_lowest_extracted :
    ((hfixHeap (initialHeap (counter c6data))).map (fun h => h.map HTree.freq) =
        some [1, 4, 5, 3, 8, 1, 9]) ∧
    ((hfixHeap (initialHeap (counter c6data))).bind firstTwoPops = some (1, 4, [1, 3, 5, 9, 8])) ∧
    (¬ nodeLtB (HTree.branch 3 (HTree.leaf 1 6) (HTree.leaf 2 7)) (HTree.leaf 3 0)) ∧
    (¬ nodeLtB (HTree.leaf 3 0) (HTree.branch 3 (HTree.leaf 1 6) (HTree.leaf 2 7))) := by
  refine ⟨by decide, by decide, by decide, by decide⟩

/-! ### Claim C7: the RUN record for constant input -/

theorem foldl_bump_same (s k m : ℕ) :
    List.foldl bump [(s, k)] (List.replicate m s) = [(s, k + m)] := by
  induction m generalizing k with
  | zero => simp
  | succ m ih =>
    rw [List.replicate_succ, List.foldl_cons]
    rw [show bump [(s, k)] s = [(s, k + 1)] from by simp [bump]]
    rw [ih]
    have hadd : k + 1 + m = k + (m + 1) := by omega
    rw [hadd]

theorem counter_replicate (s n : ℕ) (h : 0 < n) :
    counter (List.replicate n s) = [(s, n)] := by
  obtain ⟨m, rfl⟩ : ∃ m, n = m + 1 := ⟨n - 1, by omega⟩
  rw [counter, List.replicate_succ, List.foldl_cons]
  rw [show bump [] s = [(s, 1)] from rfl]
  rw [foldl_bump_same]
  have hadd : 1 + m = m + 1 := by omega
  rw [hadd]

theorem replicate_ne_nil (n s : ℕ) (h : 0 < n) : (List.replicate n s : List ℕ) ≠ [] := by
  intro hh
  have h2 := congrArg List.length hh
  rw [List.length_replicate] at h2
  simp at h2
  omega

/-- C7 (counterexample): for `n = 2^32` copies of byte 7 — a nonempty input of
a single repeated byte value — neither encoder returns the 8-byte RUN record:
both raise (`OverflowError` in `to_bytes(4, "big")` on the repeat count),
modeled as `none`. -/
theorem claim7_counterexample_count_overflow :
    hEncode (List.replicate (2 ^ 32) 7) = none ∧
    aEncode (List.replicate (2 ^ 32) 7) = none := by
  have hc : counter (List.replicate (2 ^ 32) 7) = [(7, 2 ^ 32)] :=
    counter_replicate 7 (2 ^ 32) (by norm_num)
  have hne := replicate_ne_nil (2 ^ 32) 7 (by norm_num)
  have hlen : (List.replicate (2 ^ 32) 7 : List ℕ).length = 2 ^ 32 := List.length_replicate _ _
  have h4 : toBytesBE 4 (2 ^ 32) = none := by
    rw [toBytesBE]
    norm_num
  constructor
  · rw [hEncode, if_neg hne, hc, hlen]
    simp [byte1, toBytesBE]
  · rw [aEncode, if_neg hne, hc, hlen]
    simp [byte1, toBytesBE]

/-- C7 (amended): for every nonempty input of `n < 2^32` copies of a byte
value `s`, both encoders return exactly the 8-byte record
`tag ++ [s] ++ big-endian-4(n)`, and both decoders map that record back to the
`n` copies of `s`.  (For `n ≥ 2^32` the 4-byte count write raises instead —
see the counterexample.) -/
theorem claim7_run_record (s n : ℕ) (hs : s < 256) (hn : 0 < n) (hn2 : n < 2 ^ 32) :
    hEncode (List.replicate n s) =
      some [82, 85, 78, s, n / 16777216 % 256, n / 65536 % 256, n / 256 % 256, n % 256] ∧
    aEncode (List.replicate n s) =
      some [82, 85, 78, s, n / 16777216 % 256, n / 65536 % 256, n / 256 % 256, n % 256] ∧
    ([82, 85, 78, s, n / 16777216 % 256, n / 65536 % 256, n / 256 % 256, n % 256] : List ℕ).length
      = 8 ∧
    hDecode [82, 85, 78, s, n / 16777216 % 256, n / 65536 % 256, n / 256 % 256, n % 256] =
      some (List.replicate n s) ∧
    aDecode [82, 85, 78, s, n / 16777216 % 256, n / 65536 % 256, n / 256 % 256, n % 256] =
      some (List.replicate n s) := by
  have hc : counter (List.replicate n s) = [(s, n)] := counter_replicate s n hn
  have hne := replicate_ne_nil n s hn
  have hlen : (List.replicate n s : List ℕ).length = n := List.length_replicate _ _
  have h4 : toBytesBE 4 n =
      some [n / 16777216 % 256, n / 65536 % 256, n / 256 % 256, n % 256] := by
    have hlt : n < 256 ^ 4 := by
      have : (256 : ℕ) ^ 4 = 2 ^ 32 := by norm_num
      omega
    rw [toBytesBE, if_pos hlt]
    norm_num [List.range_succ]
  have hfrom : fromBytesBE [n / 16777216 % 256, n / 65536 % 256, n / 256 % 256, n % 256] = n := by
    simp [fromBytesBE]
    omega
  refine ⟨?_, ?_, rfl, ?_, ?_⟩
  · rw [hEncode, if_neg hne, hc, hlen]
    simp [byte1, hs, h4]
  · rw [aEncode, if_neg hne, hc, hlen]
    simp [byte1, hs, h4]
  · rw [hDecode]
    rw [if_neg (by simp)]
    rw [if_pos (show List.take 3 [82, 85, 78, s, n / 16777216 % 256, n / 65536 % 256,
      n / 256 % 256, n % 256] = [82, 85, 78] from rfl)]
    simp [byte1, hs, hfrom]
  · rw [aDecode]
    rw [if_neg (by simp)]
    rw [if_pos (show List.take 3 [82, 85, 78, s, n / 16777216 % 256, n / 65536 % 256,
      n / 256 % 256, n % 256] = [82, 85, 78] from rfl)]
    simp [byte1, hs, hfrom]

/-- Witness for C7 at `s = 7`, `n = 1000`: the record is the 8 bytes
`R U N 7 0 0 3 232`. -/
theorem claim7_run_record_witness :
    (7 < 256 ∧ 0 < 1000 ∧ 1000 < 2 ^ 32) ∧
    (hEncode (List.replicate 1000 7) =
      some [82, 85, 78, 7, 1000 / 16777216 % 256, 1000 / 65536 % 256, 1000 / 256 % 256,
        1000 % 256] ∧
    aEncode (List.replicate 1000 7) =
      some [82, 85, 78, 7, 1000 / 16777216 % 256, 1000 / 65536 % 256, 1000 / 256 % 256,
        1000 % 256] ∧
    ([82, 85, 78, 7, 1000 / 16777216 % 256, 1000 / 65536 % 256, 1000 / 256 % 256,
        1000 % 256] : List ℕ).length = 8 ∧
    hDecode [82, 85, 78, 7, 1000 / 16777216 % 256, 1000 / 65536 % 256, 1000 / 256 % 256,
        1000 % 256] = some (List.replicate 1000 7) ∧
    aDecode [82, 85, 78, 7, 1000 / 16777216 % 256, 1000 / 65536 % 256, 1000 / 256 % 256,
        1000 % 256] = some (List.replicate 1000 7)) :=
  ⟨⟨by norm_num, by norm_num, by norm_num⟩,
   claim7_run_record 7 1000 (by norm_num) (by norm_num) (by norm_num)⟩

/-! ### Claim C8: totality of the bit source -/

theorem bitInGet_past_end (st : BitIn) (h : st.bits.length ≤ st.idx) :
    bitInGet st = (0, st) := by
  rw [bitInGet, if_pos h]

theorem bitInGet_in_range (bits : List ℕ) (idx : ℕ) (h : idx < bits.length) :
    bitInGet ⟨bits, idx⟩ = (bits.getD idx 0, ⟨bits, idx + 1⟩) := by
  rw [bitInGet, if_neg (by simp; omega)]

theorem bitInReadN_past_end (st : BitIn) (h : st.bits.length ≤ st.idx) (k : ℕ) :
    bitInReadN st k = (List.replicate k 0, st) := by
  induction k with
  | zero => rfl
  | succ k ih =>
    rw [bitInReadN, bitInGet_past_end st h]
    simp only [ih, List.replicate_succ]

theorem bitInReadN_to_end (bits : List ℕ) (idx k : ℕ) (h : idx + k = bits.length) :
    bitInReadN ⟨bits, idx⟩ k = (bits.drop idx, ⟨bits, bits.length⟩) := by
  induction k generalizing idx with
  | zero =>
    rw [bitInReadN]
    have hi : idx = bits.length := by omega
    subst hi
    rw [List.drop_length]
  | succ k ih =>
    have hidx : idx < bits.length := by omega
    rw [bitInReadN, bitInGet_in_range bits idx hidx]
    simp only [ih (idx + 1) (by omega)]
    rw [List.getD_eq_getElem bits 0 hidx, ← List.drop_eq_getElem_cons hidx]

theorem bitInReadN_add (st : BitIn) (a b : ℕ) :
    bitInReadN st (a + b) =
      ((bitInReadN st a).1 ++ (bitInReadN (bitInReadN st a).2 b).1,
       (bitInReadN (bitInReadN st a).2 b).2) := by
  induction a generalizing st with
  | zero => simp [bitInReadN]
  | succ a ih =>
    have hstep : a + 1 + b = (a + b) + 1 := by omega
    rw [hstep, bitInReadN, bitInReadN]
    simp only [ih (bitInGet st).2]
    rw [List.cons_append]

theorem bitsOfBytes_cons (b : ℕ) (bs : List ℕ) :
    bitsOfBytes (b :: bs) =
      [b >>> 7 &&& 1, b >>> 6 &&& 1, b >>> 5 &&& 1, b >>> 4 &&& 1,
       b >>> 3 &&& 1, b >>> 2 &&& 1, b >>> 1 &&& 1, b >>> 0 &&& 1] ++ bitsOfBytes bs := by
  rw [bitsOfBytes, List.flatMap_cons]
  rfl

theorem length_bitsOfBytes (blob : List ℕ) : (bitsOfBytes blob).length = 8 * blob.length := by
  induction blob with
  | nil => rfl
  | cons b bs ih =>
    rw [bitsOfBytes_cons, List.length_append, ih, List.length_cons]
    simp
    omega

theorem bitsOfBytes_getElem? (blob : List ℕ) (j : ℕ) (h : j < 8 * blob.length) :
    (bitsOfBytes blob)[j]? = some ((blob.getD (j / 8) 0) >>> (7 - j % 8) &&& 1) := by
  induction blob generalizing j with
  | nil => simp at h
  | cons b bs ih =>
    rw [bitsOfBytes_cons]
    by_cases hj : j < 8
    · rw [List.getElem?_append_left (by simp; omega)]
      have hj8 : j / 8 = 0 := by omega
      have hm8 : j % 8 = j := by omega
      rw [hj8, hm8]
      interval_cases j <;> rfl
    · rw [List.getElem?_append_right (by simp; omega)]
      have hlen : j - List.length [b >>> 7 &&& 1, b >>> 6 &&& 1, b >>> 5 &&& 1, b >>> 4 &&& 1,
          b >>> 3 &&& 1, b >>> 2 &&& 1, b >>> 1 &&& 1, b >>> 0 &&& 1] = j - 8 := by
        simp
      rw [hlen, ih (j - 8) (by simp at h; omega)]
      have h1 : (j - 8) / 8 = j / 8 - 1 := by omega
      have h2 : (j - 8) % 8 = j % 8 := by omega
      have h3 : j / 8 = (j / 8 - 1) + 1 := by omega
      rw [h1, h2, h3]
      rfl

/-- C8: the bit source is total: reads at or past the end of the expanded
buffer return bit 0, indefinitely and without changing the cursor; the first
`8·len` reads return the buffer's bits MSB-first per byte in sequence, and
bit `j` is bit `7 - j mod 8` of byte `j / 8`. -/
theorem claim8_bit_source_total :
    (∀ st : BitIn, st.bits.length ≤ st.idx →
        ∀ k, bitInReadN st k = (List.replicate k 0, st)) ∧
    (∀ blob m, (bitInReadN (mkBitIn blob) ((bitsOfBytes blob).length + m)).1 =
        bitsOfBytes blob ++ List.replicate m 0) ∧
    (∀ blob j, j < 8 * blob.length →
        (bitsOfBytes blob)[j]? = some ((blob.getD (j / 8) 0) >>> (7 - j % 8) &&& 1)) := by
  refine ⟨bitInReadN_past_end, ?_, bitsOfBytes_getElem?⟩
  intro blob m
  rw [bitInReadN_add]
  rw [show mkBitIn blob = ⟨bitsOfBytes blob, 0⟩ from rfl]
  rw [bitInReadN_to_end (bitsOfBytes blob) 0 (bitsOfBytes blob).length (by omega)]
  rw [List.drop_zero]
  rw [bitInReadN_past_end ⟨bitsOfBytes blob, (bitsOfBytes blob).length⟩ (by simp) m]

/-- Witness for C8 on the one-byte buffer `[0xA5]` and a fully exhausted
two-bit source. -/
theorem claim8_bit_source_total_witness :
    ((⟨[1, 0], 5⟩ : BitIn).bits.length ≤ (⟨[1, 0], 5⟩ : BitIn).idx ∧
      bitInReadN ⟨[1, 0], 5⟩ 3 = (List.replicate 3 0, ⟨[1, 0], 5⟩)) ∧
    ((bitInReadN (mkBitIn [165]) ((bitsOfBytes [165]).length + 2)).1 =
      bitsOfBytes [165] ++ List.replicate 2 0) ∧
    (3 < 8 * [165].length ∧
      (bitsOfBytes [165])[3]? = some (([165].getD (3 / 8) 0) >>> (7 - 3 % 8) &&& 1)) :=
  ⟨⟨by decide, claim8_bit_source_total.1 ⟨[1, 0], 5⟩ (by decide) 3⟩,
   claim8_bit_source_total.2.1 [165] 2,
   ⟨by decide, claim8_bit_source_total.2.2 [165] 3 (by decide)⟩⟩

/-! ### Claim C5: interval invariants of the arithmetic coder -/

/-- Arithmetic core of the narrowing step: under the interval invariant, a
width of at least `total`, and a well-formed symbol row (`1 ≤ f`,
`c + f ≤ total`), the narrowed interval is a nonempty subinterval. -/
theorem narrow_core (low high : ℤ) (c f T : ℕ)
    (hInv : aInv low high) (hwr : (T : ℤ) ≤ high - low + 1) (hf : 1 ≤ f) (hcf : c + f ≤ T) :
    low ≤ low + Int.fdiv ((high - low + 1) * (c : ℤ)) (T : ℤ) ∧
    aInv (low + Int.fdiv ((high - low + 1) * (c : ℤ)) (T : ℤ))
      (low + Int.fdiv ((high - low + 1) * (c : ℤ)) (T : ℤ) +
        Int.fdiv ((high - low + 1) * (f : ℤ)) (T : ℤ) - 1) ∧
    low + Int.fdiv ((high - low + 1) * (c : ℤ)) (T : ℤ) +
      Int.fdiv ((high - low + 1) * (f : ℤ)) (T : ℤ) - 1 ≤ high := by
  obtain ⟨h0, hlh, hht⟩ := hInv
  have hf' : (1 : ℤ) ≤ (f : ℤ) := by exact_mod_cast hf
  have hcf' : (c : ℤ) + (f : ℤ) ≤ (T : ℤ) := by exact_mod_cast hcf
  have hc' : (0 : ℤ) ≤ (c : ℤ) := by positivity
  have hT : (0 : ℤ) < (T : ℤ) := by omega
  have hr : (0 : ℤ) < high - low + 1 := by omega
  set r : ℤ := high - low + 1 with hrdef
  rw [Int.fdiv_eq_ediv _ (le_of_lt hT), Int.fdiv_eq_ediv _ (le_of_lt hT)]
  have hdc : 0 ≤ r * (c : ℤ) / (T : ℤ) := Int.ediv_nonneg (by positivity) (le_of_lt hT)
  have hdf : 1 ≤ r * (f : ℤ) / (T : ℤ) := by
    rw [Int.le_ediv_iff_mul_le hT, one_mul]
    calc (T : ℤ) ≤ r := hwr
    _ = r * 1 := by ring
    _ ≤ r * (f : ℤ) := by
        exact mul_le_mul_of_nonneg_left hf' (le_of_lt hr)
  have hsum : r * (c : ℤ) / (T : ℤ) + r * (f : ℤ) / (T : ℤ) ≤ r := by
    have h1 : r * (c : ℤ) / (T : ℤ) + r * (f : ℤ) / (T : ℤ) ≤
        (r * (c : ℤ) + r * (f : ℤ)) / (T : ℤ) := by
      rw [Int.le_ediv_iff_mul_le hT, add_mul]
      have e1 := Int.ediv_mul_le (r * (c : ℤ)) (ne_of_gt hT)
      have e2 := Int.ediv_mul_le (r * (f : ℤ)) (ne_of_gt hT)
      omega
    have h2 : (r * (c : ℤ) + r * (f : ℤ)) / (T : ℤ) ≤ r * (T : ℤ) / (T : ℤ) := by
      refine Int.ediv_le_ediv hT ?_
      have : r * ((c : ℤ) + (f : ℤ)) ≤ r * (T : ℤ) :=
        mul_le_mul_of_nonneg_left hcf' (le_of_lt hr)
      nlinarith
    have h3 : r * (T : ℤ) / (T : ℤ) = r := Int.mul_ediv_cancel r (ne_of_gt hT)
    omega
  refine ⟨by omega, ⟨by omega, by omega, by omega⟩, by omega⟩

/-- One renormalization iteration applies only to intervals of width at most
`2^31` and exactly doubles the width while preserving the invariant; when no
case applies the loop leaves the state unchanged with both exit bounds and a
width greater than `2^30 + 1`. -/
theorem aRenorm_spec (fuel : ℕ) (st : AEncState) (hInv : aInv st.low st.high)
    (hfuel : aHALF < 2 ^ fuel * (st.high - st.low + 1)) :
    aInv (aRenorm fuel st).low (aRenorm fuel st).high ∧
    aHALF ≤ (aRenorm fuel st).high ∧ (aRenorm fuel st).low < aHALF ∧
    ((aRenorm fuel st).low < aQTR ∨ 3 * aQTR ≤ (aRenorm fuel st).high) ∧
    aQTR + 2 ≤ (aRenorm fuel st).high - (aRenorm fuel st).low + 1 := by
  induction fuel generalizing st with
  | zero =>
    obtain ⟨h0, hlh, hht⟩ := hInv
    rw [aRenorm]
    have hTOP : aTOP = 2 ^ 32 := rfl
    have hH : aHALF = 2 ^ 31 := rfl
    have hQ : aQTR = 2 ^ 30 := rfl
    simp only [pow_zero, one_mul] at hfuel
    refine ⟨⟨h0, hlh, hht⟩, by omega, by omega, by omega, by omega⟩
  | succ fuel ih =>
    obtain ⟨h0, hlh, hht⟩ := hInv
    have hTOP : aTOP = 2 ^ 32 := rfl
    have hH : aHALF = 2 ^ 31 := rfl
    have hQ : aQTR = 2 ^ 30 := rfl
    rw [aRenorm]
    by_cases hca : st.high < aHALF
    · rw [if_pos hca]
      have hb : (aemit st 0).low = st.low ∧ (aemit st 0).high = st.high := by
        rw [aemit]
        split <;> exact ⟨rfl, rfl⟩
      have hlow : (aShift (aemit st 0)).low = 2 * st.low := by
        rw [aShift, hb.1, hb.2]
        exact Int.emod_eq_of_lt (by omega) (by omega)
      have hhigh : (aShift (aemit st 0)).high = 2 * st.high + 1 := by
        rw [aShift]
        simp only [hb.1, hb.2]
        exact Int.emod_eq_of_lt (by omega) (by omega)
      have := ih (aShift (aemit st 0))
        (by rw [hlow, hhigh]; exact ⟨by omega, by omega, by omega⟩)
        (by rw [hlow, hhigh]; rw [pow_succ] at hfuel; nlinarith [pow_pos (show (0:ℤ) < 2 by norm_num) fuel])
      exact this
    · rw [if_neg hca]
      by_cases hcb : aHALF ≤ st.low
      · rw [if_pos hcb]
        set st1 := { st with low := st.low - aHALF, high := st.high - aHALF }
        have hb : (aemit st1 1).low = st.low - aHALF ∧ (aemit st1 1).high = st.high - aHALF := by
          rw [aemit]
          split <;> exact ⟨rfl, rfl⟩
        have hlow : (aShift (aemit st1 1)).low = 2 * (st.low - aHALF) := by
          rw [aShift]
          simp only [hb.1, hb.2]
          exact Int.emod_eq_of_lt (by omega) (by omega)
        have hhigh : (aShift (aemit st1 1)).high = 2 * (st.high - aHALF) + 1 := by
          rw [aShift]
          simp only [hb.1, hb.2]
          exact Int.emod_eq_of_lt (by omega) (by omega)
        have := ih (aShift (aemit st1 1))
          (by rw [hlow, hhigh]; exact ⟨by omega, by omega, by omega⟩)
          (by rw [hlow, hhigh]; rw [pow_succ] at hfuel
              nlinarith [pow_pos (show (0:ℤ) < 2 by norm_num) fuel])
        exact this
      · rw [if_neg hcb]
        by_cases hcc : aQTR ≤ st.low ∧ st.high < 3 * aQTR
        · rw [if_pos hcc]
          have hlow : (aShift
              { st with low := st.low - aQTR, high := st.high - aQTR,
                        pending := st.pending + 1 }).low = 2 * (st.low - aQTR) := by
            rw [aShift]
            show (2 * (st.low - aQTR)).emod aTOP = _
            exact Int.emod_eq_of_lt (by omega) (by omega)
          have hhigh : (aShift
              { st with low := st.low - aQTR, high := st.high - aQTR,
                        pending := st.pending + 1 }).high = 2 * (st.high - aQTR) + 1 := by
            rw [aShift]
            show (2 * (st.high - aQTR) + 1).emod aTOP = _
            exact Int.emod_eq_of_lt (by omega) (by omega)
          have := ih (aShift
            { st with low := st.low - aQTR, high := st.high - aQTR, pending := st.pending + 1 })
            (by rw [hlow, hhigh]; exact ⟨by omega, by omega, by omega⟩)
            (by rw [hlow, hhigh]; rw [pow_succ] at hfuel
                nlinarith [pow_pos (show (0:ℤ) < 2 by norm_num) fuel])
          exact this
        · rw [if_neg hcc]
          push_neg at hcc
          refine ⟨⟨h0, hlh, hht⟩, by omega, by omega, by omega, by omega⟩

/-- Decoder analogue of `aRenorm_spec`: the same bound evolution (the `code`
register and bit source do not influence `low`/`high`). -/
theorem aDRenorm_spec (fuel : ℕ) (st : ADecState) (hInv : aInv st.low st.high)
    (hfuel : aHALF < 2 ^ fuel * (st.high - st.low + 1)) :
    aInv (aDRenorm fuel st).low (aDRenorm fuel st).high ∧
    aHALF ≤ (aDRenorm fuel st).high ∧ (aDRenorm fuel st).low < aHALF ∧
    ((aDRenorm fuel st).low < aQTR ∨ 3 * aQTR ≤ (aDRenorm fuel st).high) ∧
    aQTR + 2 ≤ (aDRenorm fuel st).high - (aDRenorm fuel st).low + 1 := by
  induction fuel generalizing st with
  | zero =>
    obtain ⟨h0, hlh, hht⟩ := hInv
    rw [aDRenorm]
    have hTOP : aTOP = 2 ^ 32 := rfl
    have hH : aHALF = 2 ^ 31 := rfl
    have hQ : aQTR = 2 ^ 30 := rfl
    simp only [pow_zero, one_mul] at hfuel
    refine ⟨⟨h0, hlh, hht⟩, by omega, by omega, by omega, by omega⟩
  | succ fuel ih =>
    obtain ⟨h0, hlh, hht⟩ := hInv
    have hTOP : aTOP = 2 ^ 32 := rfl
    have hH : aHALF = 2 ^ 31 := rfl
    have hQ : aQTR = 2 ^ 30 := rfl
    rw [aDRenorm]
    by_cases hca : st.high < aHALF
    · rw [if_pos hca]
      have hlow : (aDShift st).low = 2 * st.low := by
        rw [aDShift]
        exact Int.emod_eq_of_lt (by omega) (by omega)
      have hhigh : (aDShift st).high = 2 * st.high + 1 := by
        rw [aDShift]
        exact Int.emod_eq_of_lt (by omega) (by omega)
      exact ih (aDShift st)
        (by rw [hlow, hhigh]; exact ⟨by omega, by omega, by omega⟩)
        (by rw [hlow, hhigh]; rw [pow_succ] at hfuel
            nlinarith [pow_pos (show (0:ℤ) < 2 by norm_num) fuel])
    · rw [if_neg hca]
      by_cases hcb : aHALF ≤ st.low
      · rw [if_pos hcb]
        have hlow : (aDShift
            { st with low := st.low - aHALF, high := st.high - aHALF,
                      code := st.code - aHALF }).low = 2 * (st.low - aHALF) := by
          rw [aDShift]
          show (2 * (st.low - aHALF)).emod aTOP = _
          exact Int.emod_eq_of_lt (by omega) (by omega)
        have hhigh : (aDShift
            { st with low := st.low - aHALF, high := st.high - aHALF,
                      code := st.code - aHALF }).high = 2 * (st.high - aHALF) + 1 := by
          rw [aDShift]
          show (2 * (st.high - aHALF) + 1).emod aTOP = _
          exact Int.emod_eq_of_lt (by omega) (by omega)
        exact ih _
          (by rw [hlow, hhigh]; exact ⟨by omega, by omega, by omega⟩)
          (by rw [hlow, hhigh]; rw [pow_succ] at hfuel
              nlinarith [pow_pos (show (0:ℤ) < 2 by norm_num) fuel])
      · rw [if_neg hcb]
        by_cases hcc : aQTR ≤ st.low ∧ st.high < 3 * aQTR
        · rw [if_pos hcc]
          have hlow : (aDShift
              { st with low := st.low - aQTR, high := st.high - aQTR,
                        code := st.code - aQTR }).low = 2 * (st.low - aQTR) := by
            rw [aDShift]
            show (2 * (st.low - aQTR)).emod aTOP = _
            exact Int.emod_eq_of_lt (by omega) (by omega)
          have hhigh : (aDShift
              { st with low := st.low - aQTR, high := st.high - aQTR,
                        code := st.code - aQTR }).high = 2 * (st.high - aQTR) + 1 := by
            rw [aDShift]
            show (2 * (st.high - aQTR) + 1).emod aTOP = _
            exact Int.emod_eq_of_lt (by omega) (by omega)
          exact ih _
            (by rw [hlow, hhigh]; exact ⟨by omega, by omega, by omega⟩)
            (by rw [hlow, hhigh]; rw [pow_succ] at hfuel
                nlinarith [pow_pos (show (0:ℤ) < 2 by norm_num) fuel])
        · rw [if_neg hcc]
          push_neg at hcc
          refine ⟨⟨h0, hlh, hht⟩, by omega, by omega, by omega, by omega⟩

/-! ### Sorting and frequency-table well-formedness lemmas -/

theorem perm_insertLe {α : Type} (le : α → α → Bool) (a : α) (l : List α) :
    (insertLe le a l).Perm (a :: l) := by
  induction l with
  | nil => exact List.Perm.refl _
  | cons b t ih =>
    rw [insertLe]
    split
    · exact (ih.cons b).trans (List.Perm.swap a b t)
    · exact List.Perm.refl _

theorem perm_pySorted {α : Type} (le : α → α → Bool) (l : List α) :
    (pySorted le l).Perm l := by
  induction l with
  | nil => exact List.Perm.refl _
  | cons a t ih =>
    rw [pySorted]
    exact (perm_insertLe le a (pySorted le t)).trans (ih.cons a)

theorem sorted_insertLe {α : Type} (le : α → α → Bool)
    (htot : ∀ a b, le a b ∨ le b a) (htrans : ∀ a b c, le a b → le b c → le a c)
    (a : α) (l : List α) (h : List.Pairwise (fun x y => le x y = true) l) :
    List.Pairwise (fun x y => le x y = true) (insertLe le a l) := by
  induction l with
  | nil => simp [insertLe]
  | cons b t ih =>
    rw [insertLe]
    rcases List.pairwise_cons.mp h with ⟨hb, ht⟩
    split
    · rename_i hba
      refine List.pairwise_cons.mpr ⟨?_, ih ht⟩
      intro x hx
      rcases List.mem_cons.mp (((perm_insertLe le a t).mem_iff).mp hx) with hx1 | hx1
      · subst hx1
        exact hba
      · exact hb x hx1
    · rename_i hba
      have hab : le a b = true := by
        rcases htot a b with h1 | h1
        · exact h1
        · exact absurd h1 (by simpa using hba)
      refine List.pairwise_cons.mpr ⟨?_, h⟩
      intro x hx
      rcases (by simpa using hx : x = b ∨ x ∈ t) with hx1 | hx1
      · subst hx1
        exact hab
      · exact htrans a b x hab (hb x hx1)

theorem sorted_pySorted {α : Type} (le : α → α → Bool)
    (htot : ∀ a b, le a b ∨ le b a) (htrans : ∀ a b c, le a b → le b c → le a c)
    (l : List α) : List.Pairwise (fun x y => le x y = true) (pySorted le l) := by
  induction l with
  | nil => simp [pySorted]
  | cons a t ih =>
    rw [pySorted]
    exact sorted_insertLe le htot htrans a (pySorted le t) ih

/-- A stable sort of an already-sorted list (by an antisymmetric total
preorder) is the list itself. -/
theorem pySorted_eq_self {α : Type} (le : α → α → Bool)
    (htot : ∀ a b, le a b ∨ le b a) (htrans : ∀ a b c, le a b → le b c → le a c)
    (hanti : ∀ a b, le a b → le b a → a = b)
    (l : List α) (h : List.Pairwise (fun x y => le x y = true) l) :
    pySorted le l = l := by
  have : IsAntisymm α (fun x y => le x y = true) := ⟨hanti⟩
  exact List.eq_of_perm_of_sorted (perm_pySorted le l)
    (sorted_pySorted le htot htrans l) h

theorem scanl_add_getLastD (f : ℕ → ℕ) (syms : List ℕ) (acc d : ℕ) :
    (syms.scanl (fun r s => r + f s) acc).getLastD d = acc + (syms.map f).sum := by
  induction syms generalizing acc d with
  | nil => simp
  | cons t rest ih =>
    rw [List.scanl_cons]
    simp only [List.singleton_append, List.getLastD_cons]
    rw [ih (acc + f t) acc]
    simp [add_assoc]

theorem zip_scanl_cum_bound (f : ℕ → ℕ) (syms : List ℕ) (acc b : ℕ) (hb : b ∈ syms) :
    lookup0 (syms.zip (syms.scanl (fun r s => r + f s) acc)) b + f b ≤
      (syms.scanl (fun r s => r + f s) acc).getLastD 0 := by
  induction syms generalizing acc with
  | nil => simp at hb
  | cons t rest ih =>
    rw [List.scanl_cons]
    simp only [List.singleton_append, List.getLastD_cons]
    rw [scanl_add_getLastD]
    rw [show (t :: rest).zip (acc :: List.scanl (fun r s => r + f s) (acc + f t) rest) =
      (t, acc) :: rest.zip (List.scanl (fun r s => r + f s) (acc + f t) rest) from rfl]
    rw [lookup0_cons]
    by_cases hbt : b = t
    · rw [if_pos hbt]
      subst hbt
      omega
    · rw [if_neg hbt]
      have hbr : b ∈ rest := by
        rcases (by simpa using hb : b = t ∨ b ∈ rest) with h1 | h1
        · exact absurd h1 hbt
        · exact h1
      have := ih (acc + f t) hbr
      rw [scanl_add_getLastD] at this
      omega

theorem sum_map_snd_bump (acc : List (ℕ × ℕ)) (b : ℕ) :
    ((bump acc b).map Prod.snd).sum = (acc.map Prod.snd).sum + 1 := by
  induction acc with
  | nil => simp [bump]
  | cons p t ih =>
    obtain ⟨k, v⟩ := p
    by_cases hk : k = b
    · simp [bump, hk]
      omega
    · simp [bump, hk, ih]
      omega

theorem sum_map_snd_counter (data : List ℕ) :
    ((counter data).map Prod.snd).sum = data.length := by
  suffices h : ∀ (l : List ℕ) (acc : List (ℕ × ℕ)),
      ((List.foldl bump acc l).map Prod.snd).sum = (acc.map Prod.snd).sum + l.length by
    simpa [counter] using h data []
  intro l
  induction l with
  | nil => simp
  | cons b t ih =>
    intro acc
    rw [List.foldl_cons, ih, sum_map_snd_bump]
    simp
    omega

theorem map_lookup0_keys (d : List (ℕ × ℕ)) (h : (d.map Prod.fst).Nodup) :
    (d.map Prod.fst).map (lookup0 d) = d.map Prod.snd := by
  induction d with
  | nil => simp
  | cons p t ih =>
    obtain ⟨k, v⟩ := p
    simp only [List.map_cons, List.map_map]
    rcases List.pairwise_cons.mp h with ⟨hk, ht⟩
    rw [lookup0_cons, if_pos rfl]
    congr 1
    have : ∀ s ∈ t.map Prod.fst, lookup0 ((k, v) :: t) s = lookup0 t s := by
      intro s hs
      rw [lookup0_cons, if_neg]
      intro hsk
      subst hsk
      exact (hk s hs) rfl
    calc List.map (lookup0 ((k, v) :: t) ∘ Prod.fst) t
        = (t.map Prod.fst).map (lookup0 ((k, v) :: t)) := by rw [List.map_map]
      _ = (t.map Prod.fst).map (lookup0 t) := List.map_congr_left this
      _ = t.map Prod.snd := ih ht

/-- The cumulative total computed by `buildCum (counter data)` is the input
length. -/
theorem buildCum_total (data : List ℕ) : (buildCum (counter data)).2 = data.length := by
  rw [buildCum]
  simp only
  rw [scanl_add_getLastD]
  have hperm : (sortedKeys (counter data)).Perm ((counter data).map Prod.fst) :=
    perm_pySorted _ _
  have := (hperm.map (lookup0 (counter data))).sum_eq
  rw [this, map_lookup0_keys _ (nodup_keys_counter data), sum_map_snd_counter]
  omega

/-- Row well-formedness of the encoder's tables for every input byte. -/
theorem aTables_row_wf (data : List ℕ) (b : ℕ) (hb : b ∈ data) :
    1 ≤ lookup0 (counter data) b ∧
    lookup0 (buildCum (counter data)).1 b + lookup0 (counter data) b ≤
      (buildCum (counter data)).2 := by
  constructor
  · rw [lookup0_counter]
    exact List.count_pos_iff.mpr hb
  · rw [buildCum]
    simp only
    have hbk : b ∈ sortedKeys (counter data) := by
      have hperm : (sortedKeys (counter data)).Perm ((counter data).map Prod.fst) :=
        perm_pySorted _ _
      rw [hperm.mem_iff, mem_keys_counter]
      exact hb
    exact zip_scanl_cum_bound (lookup0 (counter data)) (sortedKeys (counter data)) 0 b hbk

theorem pyScan_mem (symbols : List ℕ) (p : ℕ → Bool) (s : ℕ)
    (h : pyScan symbols p = some s) : s ∈ symbols := by
  cases symbols with
  | nil => simp [pyScan] at h
  | cons a t =>
    have h' : (match List.find? p (a :: t) with
        | some s => some s
        | none => (a :: t).getLast?) = some s := h
    rcases hf : List.find? p (a :: t) with _ | s'
    · rw [hf] at h'
      simp only at h'
      exact List.mem_of_mem_getLast? (Option.mem_def.mpr h')
    · rw [hf] at h'
      simp only at h'
      cases h'
      exact List.mem_of_find?_eq_some hf

/-- Invariant propagation along the encoder's state trace. -/
theorem aEnc_trace_inv (freq cum : List (ℕ × ℕ)) (T : ℕ) (hT : (T : ℤ) ≤ aQTR)
    (l : List ℕ) (st : AEncState)
    (hrow : ∀ b ∈ l, 1 ≤ lookup0 freq b ∧ lookup0 cum b + lookup0 freq b ≤ T)
    (hInv : aInv st.low st.high) (hwidth : (T : ℤ) ≤ st.high - st.low + 1) :
    (∀ x ∈ List.scanl (aStep freq cum T) st l, aInv x.low x.high) ∧
    (∀ i, i < l.length →
      aInv (aNarrow freq cum T ((List.scanl (aStep freq cum T) st l).getD i aInit)
          (l.getD i 0)).low
        (aNarrow freq cum T ((List.scanl (aStep freq cum T) st l).getD i aInit)
          (l.getD i 0)).high) := by
  induction l generalizing st with
  | nil =>
    constructor
    · intro x hx
      rw [List.scanl_nil] at hx
      rcases (by simpa using hx : x = st) with rfl
      exact hInv
    · intro i hi
      simp at hi
  | cons b l' ih =>
    have hrowb := hrow b (by simp)
    have hnarrow := narrow_core st.low st.high (lookup0 cum b) (lookup0 freq b) T hInv hwidth
      hrowb.1 hrowb.2
    have hnInv : aInv (aNarrow freq cum T st b).low (aNarrow freq cum T st b).high :=
      hnarrow.2.1
    have hfuel : aHALF < 2 ^ 64 *
        ((aNarrow freq cum T st b).high - (aNarrow freq cum T st b).low + 1) := by
      obtain ⟨x0, xl, xh⟩ := hnInv
      have h1 : (1 : ℤ) ≤ (aNarrow freq cum T st b).high - (aNarrow freq cum T st b).low + 1 :=
        by omega
      have hH : aHALF = 2 ^ 31 := rfl
      nlinarith [h1]
    have hstep := aRenorm_spec 64 (aNarrow freq cum T st b) hnInv hfuel
    have hstepInv : aInv (aStep freq cum T st b).low (aStep freq cum T st b).high := hstep.1
    have hstepW : (T : ℤ) ≤ (aStep freq cum T st b).high - (aStep freq cum T st b).low + 1 := by
      have hQ : aQTR = 2 ^ 30 := rfl
      have := hstep.2.2.2.2
      rw [aStep]
      omega
    have ihres := ih (aStep freq cum T st b)
      (fun x hx => hrow x (by simp [hx])) hstepInv hstepW
    constructor
    · intro x hx
      rw [List.scanl_cons] at hx
      rcases (by simpa using hx : x = st ∨ x ∈ List.scanl (aStep freq cum T)
        (aStep freq cum T st b) l') with rfl | hx1
      · exact hInv
      · exact ihres.1 x hx1
    · intro i hi
      rw [List.scanl_cons]
      cases i with
      | zero =>
        simp only [List.singleton_append, List.getD_cons_zero]
        exact hnInv
      | succ i =>
        simp only [List.singleton_append, List.getD_cons_succ]
        exact ihres.2 i (by simpa using hi)

/-- Invariant propagation along the decoder's state trace. -/
theorem aDec_trace_inv (symbols : List ℕ) (freq cum : List (ℕ × ℕ)) (T : ℕ)
    (hT : (T : ℤ) ≤ aQTR)
    (hrow : ∀ s ∈ symbols, 1 ≤ lookup0 freq s ∧ lookup0 cum s + lookup0 freq s ≤ T)
    (n : ℕ) (st : ADecState)
    (hInv : aInv st.low st.high) (hwidth : (T : ℤ) ≤ st.high - st.low + 1) :
    ∀ x ∈ aDLoopStates symbols freq cum T n st, aInv x.low x.high := by
  induction n generalizing st with
  | zero =>
    intro x hx
    rw [aDLoopStates] at hx
    rcases (by simpa using hx : x = st) with rfl
    exact hInv
  | succ n ih =>
    intro x hx
    rw [aDLoopStates] at hx
    rcases List.mem_cons.mp hx with rfl | hx1
    · exact hInv
    · have hr0 : ¬ (st.high - st.low + 1 = 0) := by
        obtain ⟨x0, xl, xh⟩ := hInv
        omega
      rw [if_neg hr0] at hx1
      rcases hscan : pyScan symbols (fun s =>
          decide (((lookup0 cum s : ℤ) + (lookup0 freq s : ℤ) >
              Int.fdiv ((st.code - st.low + 1) * (T : ℤ) - 1) (st.high - st.low + 1)) ∧
            (Int.fdiv ((st.code - st.low + 1) * (T : ℤ) - 1) (st.high - st.low + 1) ≥
              (lookup0 cum s : ℤ)))) with _ | s
      · rw [hscan] at hx1
        simp at hx1
      · rw [hscan] at hx1
        have hs := pyScan_mem _ _ _ hscan
        have hrows := hrow s hs
        have hnarrow := narrow_core st.low st.high (lookup0 cum s) (lookup0 freq s) T hInv
          hwidth hrows.1 hrows.2
        have hnInv : aInv (aDNarrow freq cum T st s).low (aDNarrow freq cum T st s).high :=
          hnarrow.2.1
        have hfuel : aHALF < 2 ^ 64 *
            ((aDNarrow freq cum T st s).high - (aDNarrow freq cum T st s).low + 1) := by
          obtain ⟨x0, xl, xh⟩ := hnInv
          have h1 : (1 : ℤ) ≤ (aDNarrow freq cum T st s).high -
              (aDNarrow freq cum T st s).low + 1 := by omega
          have hH : aHALF = 2 ^ 31 := rfl
          nlinarith [h1]
        have hstep := aDRenorm_spec 64 (aDNarrow freq cum T st s) hnInv hfuel
        refine ih (aDRenorm 64 (aDNarrow freq cum T st s)) hstep.1 ?_ x hx1
        have hQ : aQTR = 2 ^ 30 := rfl
        have := hstep.2.2.2.2
        omega

theorem foldl_bump_c5_ones (N k : ℕ) :
    List.foldl bump [(1, k), (2, 1), (0, 2)] (List.replicate N 1) =
      [(1, k + N), (2, 1), (0, 2)] := by
  induction N generalizing k with
  | zero => simp
  | succ N ih =>
    rw [List.replicate_succ, List.foldl_cons]
    rw [show bump [(1, k), (2, 1), (0, 2)] 1 = [(1, k + 1), (2, 1), (0, 2)] from by
      simp [bump]]
    rw [ih (k + 1)]
    have : k + 1 + N = k + (N + 1) := by omega
    rw [this]

theorem foldl_bump_c5_threes (M K k : ℕ) :
    List.foldl bump [(1, K), (2, 1), (0, 2), (3, k)] (List.replicate M 3) =
      [(1, K), (2, 1), (0, 2), (3, k + M)] := by
  induction M generalizing k with
  | zero => simp
  | succ M ih =>
    rw [List.replicate_succ, List.foldl_cons]
    rw [show bump [(1, K), (2, 1), (0, 2), (3, k)] 3 = [(1, K), (2, 1), (0, 2), (3, k + 1)] from by
      simp [bump]]
    rw [ih (k + 1)]
    have : k + 1 + M = k + (M + 1) := by omega
    rw [this]

theorem counter_c5data :
    counter c5data = [(1, 2 ^ 30 - 1), (2, 1), (0, 2), (3, 2 ^ 30 - 2)] := by
  obtain ⟨M, hM⟩ : ∃ M, 2 ^ 30 - 2 = M + 1 := ⟨2 ^ 30 - 3, by norm_num⟩
  rw [counter, c5data, List.foldl_append, List.foldl_append, List.foldl_append]
  rw [show List.foldl bump ([] : List (ℕ × ℕ)) [1, 2] = [(1, 1), (2, 1)] from rfl]
  rw [show List.foldl bump [(1, 1), (2, 1)] (List.replicate 2 0) = [(1, 1), (2, 1), (0, 2)]
    from rfl]
  rw [foldl_bump_c5_ones]
  have h1 : 1 + (2 ^ 30 - 2) = 2 ^ 30 - 1 := by norm_num
  rw [h1]
  rw [hM, List.replicate_succ, List.foldl_cons]
  rw [show bump [(1, 2 ^ 30 - 1), (2, 1), (0, 2)] 3 =
    [(1, 2 ^ 30 - 1), (2, 1), (0, 2), (3, 1)] from by simp [bump]]
  rw [foldl_bump_c5_threes]
  have h2 : 1 + M = M + 1 := by omega
  rw [h2]

/-- C5 (counterexample): encoding `c5data` (length `2^31`, total frequency
`2^31 > 2^30`) breaks the invariant `low ≤ high`: when the encoder narrows for
the second input byte (symbol 2, frequency 1), the interval width
`2^31 - 2` is below `total`, the sub-interval width floors to zero, and the
state becomes `low = 2^30 + 3 > high = 2^30 + 2`. -/
theorem claim5_counterexample_interval_inverts :
    (aNarrow (counter c5data) (buildCum (counter c5data)).1 (buildCum (counter c5data)).2
        ((aEncStates (counter c5data) (buildCum (counter c5data)).1
          (buildCum (counter c5data)).2 c5data).getD 1 aInit)
        (c5data.getD 1 0)).low = 2 ^ 30 + 3 ∧
    (aNarrow (counter c5data) (buildCum (counter c5data)).1 (buildCum (counter c5data)).2
        ((aEncStates (counter c5data) (buildCum (counter c5data)).1
          (buildCum (counter c5data)).2 c5data).getD 1 aInit)
        (c5data.getD 1 0)).high = 2 ^ 30 + 2 ∧
    ¬ ((aNarrow (counter c5data) (buildCum (counter c5data)).1 (buildCum (counter c5data)).2
        ((aEncStates (counter c5data) (buildCum (counter c5data)).1
          (buildCum (counter c5data)).2 c5data).getD 1 aInit)
        (c5data.getD 1 0)).low ≤
      (aNarrow (counter c5data) (buildCum (counter c5data)).1 (buildCum (counter c5data)).2
        ((aEncStates (counter c5data) (buildCum (counter c5data)).1
          (buildCum (counter c5data)).2 c5data).getD 1 aInit)
        (c5data.getD 1 0)).high) := by
  have hcons : c5data = 1 :: 2 :: (List.replicate 2 0 ++
      (List.replicate (2 ^ 30 - 2) 1 ++ List.replicate (2 ^ 30 - 2) 3)) := rfl
  have hget1 : c5data.getD 1 0 = 2 := rfl
  have hstates : ∀ (freq cum : List (ℕ × ℕ)) (T : ℕ),
      (aEncStates freq cum T c5data).getD 1 aInit = aStep freq cum T aInit 1 := by
    intro freq cum T
    rw [aEncStates, hcons, List.scanl_cons, List.scanl_cons]
    rfl
  rw [hget1, hstates, counter_c5data]
  decide

/-- C5 (amended): provided the input length (= total frequency) is at most
`2^30`, every state of the arithmetic encoder's trace — including each
narrowed-but-not-yet-renormalized interval — satisfies
`0 ≤ low ≤ high ≤ 2^32 - 1`; renormalization of any invariant-satisfying
state exits with width `high - low + 1 ≥ 2^30` (encoder and decoder alike);
and the decoder's symbol loop preserves the bound invariant whenever its
parsed table rows are well-formed (`freq[s] ≥ 1`, `cum[s] + freq[s] ≤ total`)
with `total ≤ 2^30`.  Without the `2^30` bound the invariant fails — see the
counterexample. -/
theorem claim5_interval_invariants :
    (∀ data : List ℕ, data.length ≤ 2 ^ 30 →
      (∀ x ∈ aEncStates (counter data) (buildCum (counter data)).1
          (buildCum (counter data)).2 data, aInv x.low x.high) ∧
      (∀ i, i < data.length →
        aInv (aNarrow (counter data) (buildCum (counter data)).1 (buildCum (counter data)).2
            ((aEncStates (counter data) (buildCum (counter data)).1
              (buildCum (counter data)).2 data).getD i aInit) (data.getD i 0)).low
          (aNarrow (counter data) (buildCum (counter data)).1 (buildCum (counter data)).2
            ((aEncStates (counter data) (buildCum (counter data)).1
              (buildCum (counter data)).2 data).getD i aInit) (data.getD i 0)).high)) ∧
    (∀ st : AEncState, aInv st.low st.high →
      aInv (aRenorm 64 st).low (aRenorm 64 st).high ∧
      aQTR ≤ (aRenorm 64 st).high - (aRenorm 64 st).low + 1) ∧
    (∀ st : ADecState, aInv st.low st.high →
      aInv (aDRenorm 64 st).low (aDRenorm 64 st).high ∧
      aQTR ≤ (aDRenorm 64 st).high - (aDRenorm 64 st).low + 1) ∧
    (∀ (symbols : List ℕ) (freq cum : List (ℕ × ℕ)) (T : ℕ), (T : ℤ) ≤ aQTR →
      (∀ s ∈ symbols, 1 ≤ lookup0 freq s ∧ lookup0 cum s + lookup0 freq s ≤ T) →
      ∀ (n : ℕ) (code : ℤ) (bin : BitIn),
        ∀ x ∈ aDLoopStates symbols freq cum T n ⟨0, aTOP - 1, code, bin⟩,
          aInv x.low x.high) := by
  have hQ : aQTR = 2 ^ 30 := rfl
  have hTOP : aTOP = 2 ^ 32 := rfl
  refine ⟨?_, ?_, ?_, ?_⟩
  · intro data hlen
    have hT : ((buildCum (counter data)).2 : ℤ) ≤ aQTR := by
      rw [buildCum_total, hQ]
      exact_mod_cast hlen
    have hrow : ∀ b ∈ data, 1 ≤ lookup0 (counter data) b ∧
        lookup0 (buildCum (counter data)).1 b + lookup0 (counter data) b ≤
          (buildCum (counter data)).2 := fun b hb => aTables_row_wf data b hb
    have hInv0 : aInv aInit.low aInit.high := by decide
    have hw0 : ((buildCum (counter data)).2 : ℤ) ≤ aInit.high - aInit.low + 1 := by
      show ((buildCum (counter data)).2 : ℤ) ≤ aTOP - 1 - 0 + 1
      rw [hQ] at hT
      rw [hTOP]
      omega
    have := aEnc_trace_inv (counter data) (buildCum (counter data)).1
      (buildCum (counter data)).2 hT data aInit hrow hInv0 hw0
    rw [aEncStates]
    exact this
  · intro st hInv
    obtain ⟨h0, hlh, hht⟩ := hInv
    have hfuel : aHALF < 2 ^ 64 * (st.high - st.low + 1) := by
      have hH : aHALF = 2 ^ 31 := rfl
      nlinarith [show (1:ℤ) ≤ st.high - st.low + 1 from by omega]
    have := aRenorm_spec 64 st ⟨h0, hlh, hht⟩ hfuel
    exact ⟨this.1, by omega⟩
  · intro st hInv
    obtain ⟨h0, hlh, hht⟩ := hInv
    have hfuel : aHALF < 2 ^ 64 * (st.high - st.low + 1) := by
      have hH : aHALF = 2 ^ 31 := rfl
      nlinarith [show (1:ℤ) ≤ st.high - st.low + 1 from by omega]
    have := aDRenorm_spec 64 st ⟨h0, hlh, hht⟩ hfuel
    exact ⟨this.1, by omega⟩
  · intro symbols freq cum T hT hrow n code bin
    refine aDec_trace_inv symbols freq cum T hT hrow n _
      ⟨le_refl 0, show (0 : ℤ) ≤ aTOP - 1 from by rw [hTOP]; omega,
       show aTOP - 1 < aTOP from by omega⟩ ?_
    show (T : ℤ) ≤ aTOP - 1 - 0 + 1
    rw [hQ] at hT
    rw [hTOP]
    omega

/-- Witness for C5 on the two-byte input `[0, 1]` and a one-symbol decoder
table. -/
theorem claim5_interval_invariants_witness :
    (([0, 1] : List ℕ).length ≤ 2 ^ 30 ∧
      (∀ x ∈ aEncStates (counter [0, 1]) (buildCum (counter [0, 1])).1
          (buildCum (counter [0, 1])).2 [0, 1], aInv x.low x.high)) ∧
    (aInv aInit.low aInit.high ∧
      aQTR ≤ (aRenorm 64 aInit).high - (aRenorm 64 aInit).low + 1) ∧
    (((1 : ℕ) : ℤ) ≤ aQTR ∧ (∀ s ∈ [0], 1 ≤ lookup0 [(0, 1)] s ∧
        lookup0 [(0, 0)] s + lookup0 [(0, 1)] s ≤ 1) ∧
      (∀ x ∈ aDLoopStates [0] [(0, 1)] [(0, 0)] 1 1 ⟨0, aTOP - 1, 0, mkBitIn []⟩,
        aInv x.low x.high)) :=
  ⟨⟨by norm_num, ((claim5_interval_invariants.1 [0, 1] (by norm_num)).1)⟩,
   ⟨by decide, (claim5_interval_invariants.2.1 aInit (by decide)).2⟩,
   ⟨by decide, by decide,
    claim5_interval_invariants.2.2.2 [0] [(0, 1)] [(0, 0)] 1 (by decide) (by decide) 1 0
      (mkBitIn [])⟩⟩

/-! ### Permutation lemmas for the CPython heap operations -/

theorem set_getElem_self_eq {α : Type} (l : List α) (i : ℕ) (h : i < l.length) :
    l.set i l[i] = l :=
  List.ext_getElem (by simp) (fun n h1 h2 => by
    rw [List.getElem_set]
    split
    · rename_i he
      subst he
      rfl
    · rfl)

theorem set_getD_self {α : Type} (d : α) (l : List α) (i : ℕ) (h : i < l.length) :
    l.set i (l.getD i d) = l := by
  rw [List.getD_eq_getElem l d h]
  exact set_getElem_self_eq l i h

theorem perm_getD_cons_set {α : Type} (d : α) :
    ∀ (t : List α) (j : ℕ), j < t.length → ∀ v, (t.getD j d :: t.set j v).Perm (v :: t)
  | [], j, hj, v => absurd hj (by simp)
  | b :: s, 0, _, v => by
    simp only [List.getD_cons_zero, List.set_cons_zero]
    exact List.Perm.swap v b s
  | b :: s, j + 1, hj, v => by
    simp only [List.getD_cons_succ, List.set_cons_succ]
    have ihj := perm_getD_cons_set d s j (by simpa using hj) v
    exact (List.Perm.swap b (s.getD j d) (s.set j v)).trans
      ((ihj.cons b).trans (List.Perm.swap v b s))

theorem perm_cons_set_swap {α : Type} :
    ∀ (t : List α) (i : ℕ), i < t.length → ∀ (a v : α), (v :: t.set i a).Perm (a :: t.set i v)
  | [], i, hi, _, _ => absurd hi (by simp)
  | b :: s, 0, _, a, v => by
    simp only [List.set_cons_zero]
    exact List.Perm.swap a v s
  | b :: s, i + 1, hi, a, v => by
    simp only [List.set_cons_succ]
    have ihi := perm_cons_set_swap s i (by simpa using hi) a v
    exact (List.Perm.swap b v (s.set i a)).trans
      ((ihi.cons b).trans (List.Perm.swap a b (s.set i v)))

/-- Writing slot `j`'s value into slot `i` and then overwriting slot `j` is,
up to permutation, just overwriting slot `i`. -/
theorem perm_set_set {α : Type} (d : α) :
    ∀ (l : List α) (i j : ℕ), i ≠ j → i < l.length → j < l.length →
      ∀ v, ((l.set i (l.getD j d)).set j v).Perm (l.set i v)
  | [], _, _, _, hi, _, _ => absurd hi (by simp)
  | b :: s, 0, 0, hij, _, _, _ => absurd rfl hij
  | b :: s, 0, j + 1, _, _, hj, v => by
    simp only [List.getD_cons_succ, List.set_cons_zero, List.set_cons_succ]
    exact perm_getD_cons_set d s j (by simpa using hj) v
  | b :: s, i + 1, 0, _, hi, _, v => by
    simp only [List.getD_cons_zero, List.set_cons_succ, List.set_cons_zero]
    exact perm_cons_set_swap s i (by simpa using hi) b v
  | b :: s, i + 1, j + 1, hij, hi, hj, v => by
    simp only [List.getD_cons_succ, List.set_cons_succ]
    exact (perm_set_set d s i j (by omega) (by simpa using hi) (by simpa using hj) v).cons b

theorem siftdownLoop_spec (newitem : HTree) (startpos : ℕ) (fuel : ℕ) (heap : List HTree)
    (pos : ℕ) (hpos : pos < heap.length) :
    (siftdownLoop newitem startpos fuel heap pos).2 <
      (siftdownLoop newitem startpos fuel heap pos).1.length ∧
    (siftdownLoop newitem startpos fuel heap pos).1.length = heap.length ∧
    ∀ v, ((siftdownLoop newitem startpos fuel heap pos).1.set
        (siftdownLoop newitem startpos fuel heap pos).2 v).Perm (heap.set pos v) := by
  induction fuel generalizing heap pos with
  | zero =>
    rw [siftdownLoop]
    exact ⟨hpos, rfl, fun v => List.Perm.refl _⟩
  | succ fuel ih =>
    rw [siftdownLoop]
    by_cases hsp : startpos < pos
    · rw [if_pos hsp]
      by_cases hlt : nodeLtB newitem (heap.getD ((pos - 1) / 2) hDflt)
      · rw [if_pos hlt]
        have hpp : (pos - 1) / 2 < pos := by
          have := Nat.div_le_self (pos - 1) 2
          omega
        have hpp2 : (pos - 1) / 2 < (heap.set pos (heap.getD ((pos - 1) / 2) hDflt)).length := by
          rw [List.length_set]
          omega
        obtain ⟨ha, hb, hc⟩ := ih (heap.set pos (heap.getD ((pos - 1) / 2) hDflt))
          ((pos - 1) / 2) hpp2
        refine ⟨ha, by rw [hb, List.length_set], ?_⟩
        intro v
        exact (hc v).trans (perm_set_set hDflt heap pos ((pos - 1) / 2) (by omega) hpos
          (by omega) v)
      · rw [if_neg hlt]
        exact ⟨hpos, rfl, fun v => List.Perm.refl _⟩
    · rw [if_neg hsp]
      exact ⟨hpos, rfl, fun v => List.Perm.refl _⟩

theorem siftdown_perm (heap : List HTree) (startpos pos : ℕ) (hpos : pos < heap.length) :
    (siftdown heap startpos pos).Perm heap := by
  rw [siftdown]
  obtain ⟨ha, hb, hc⟩ := siftdownLoop_spec (heap.getD pos hDflt) startpos pos heap pos hpos
  exact (hc (heap.getD pos hDflt)).trans (by rw [set_getD_self hDflt heap pos hpos])

theorem siftupLoop_spec (fuel : ℕ) (heap : List HTree) (pos : ℕ) (hpos : pos < heap.length) :
    (siftupLoop fuel heap pos).2 < (siftupLoop fuel heap pos).1.length ∧
    (siftupLoop fuel heap pos).1.length = heap.length ∧
    ∀ v, ((siftupLoop fuel heap pos).1.set (siftupLoop fuel heap pos).2 v).Perm
      (heap.set pos v) := by
  induction fuel generalizing heap pos with
  | zero =>
    rw [siftupLoop]
    exact ⟨hpos, rfl, fun v => List.Perm.refl _⟩
  | succ fuel ih =>
    rw [siftupLoop]
    simp only
    by_cases hcp : 2 * pos + 1 < heap.length
    · rw [if_pos hcp]
      by_cases hsplit : 2 * pos + 1 + 1 < heap.length ∧
          ¬ nodeLtB (heap.getD (2 * pos + 1) hDflt) (heap.getD (2 * pos + 1 + 1) hDflt)
      · rw [if_pos hsplit]
        have hcpl : 2 * pos + 1 + 1 < heap.length := hsplit.1
        have hpos2 : 2 * pos + 1 + 1 <
            (heap.set pos (heap.getD (2 * pos + 1 + 1) hDflt)).length := by
          rw [List.length_set]
          exact hcpl
        obtain ⟨ha, hb, hc⟩ := ih (heap.set pos (heap.getD (2 * pos + 1 + 1) hDflt))
          (2 * pos + 1 + 1) hpos2
        refine ⟨ha, by rw [hb, List.length_set], ?_⟩
        intro v
        exact (hc v).trans (perm_set_set hDflt heap pos (2 * pos + 1 + 1) (by omega) hpos hcpl v)
      · rw [if_neg hsplit]
        have hpos2 : 2 * pos + 1 < (heap.set pos (heap.getD (2 * pos + 1) hDflt)).length := by
          rw [List.length_set]
          exact hcp
        obtain ⟨ha, hb, hc⟩ := ih (heap.set pos (heap.getD (2 * pos + 1) hDflt))
          (2 * pos + 1) hpos2
        refine ⟨ha, by rw [hb, List.length_set], ?_⟩
        intro v
        exact (hc v).trans (perm_set_set hDflt heap pos (2 * pos + 1) (by omega) hpos hcp v)
    · rw [if_neg hcp]
      exact ⟨hpos, rfl, fun v => List.Perm.refl _⟩

theorem siftup_perm (heap : List HTree) (pos : ℕ) (hpos : pos < heap.length) :
    (siftup heap pos).Perm heap := by
  rw [siftup]
  obtain ⟨ha, hb, hc⟩ := siftupLoop_spec heap.length heap pos hpos
  have h1 : ((siftupLoop heap.length heap pos).1.set (siftupLoop heap.length heap pos).2
      (heap.getD pos hDflt)).Perm heap :=
    (hc (heap.getD pos hDflt)).trans (by rw [set_getD_self hDflt heap pos hpos])
  refine (siftdown_perm _ pos (siftupLoop heap.length heap pos).2 ?_).trans h1
  rw [List.length_set]
  exact ha

theorem heappush_perm (heap : List HTree) (item : HTree) :
    (heappush heap item).Perm (heap ++ [item]) := by
  rw [heappush]
  exact siftdown_perm (heap ++ [item]) 0 heap.length (by simp)

theorem heappop_perm (heap : List HTree) (x : HTree) (h' : List HTree)
    (h : heappop heap = some (x, h')) : (x :: h').Perm heap := by
  rw [heappop] at h
  rcases hlast : heap.getLast? with _ | lastelt
  · rw [hlast] at h
    exact absurd h (by simp)
  · rw [hlast] at h
    simp only at h
    have hne : heap ≠ [] := by
      intro hh
      subst hh
      simp at hlast
    have hgl : heap.getLast hne = lastelt := by
      have hq := List.getLast?_eq_getLast heap hne
      rw [hq] at hlast
      exact Option.some_inj.mp hlast
    have hdecomp : heap.dropLast ++ [lastelt] = heap := by
      rw [← hgl]
      exact List.dropLast_append_getLast hne
    by_cases hrest : heap.dropLast = []
    · rw [if_pos hrest] at h
      simp only [Option.some_inj, Prod.mk.injEq] at h
      obtain ⟨rfl, rfl⟩ := h
      rw [← hdecomp, hrest]
      exact List.Perm.refl _
    · rw [if_neg hrest] at h
      simp only [Option.some_inj, Prod.mk.injEq] at h
      obtain ⟨rfl, rfl⟩ := h
      have hlen : 0 < heap.dropLast.length := List.length_pos.mpr hrest
      have hperm1 : (siftup (heap.dropLast.set 0 lastelt) 0).Perm
          (heap.dropLast.set 0 lastelt) :=
        siftup_perm _ 0 (by rw [List.length_set]; exact hlen)
      have c1 : (heap.dropLast.getD 0 hDflt :: siftup (heap.dropLast.set 0 lastelt) 0).Perm
          (heap.dropLast.getD 0 hDflt :: heap.dropLast.set 0 lastelt) := hperm1.cons _
      have c2 : (heap.dropLast.getD 0 hDflt :: heap.dropLast.set 0 lastelt).Perm
          (lastelt :: heap.dropLast) := perm_getD_cons_set hDflt heap.dropLast 0 hlen lastelt
      have c3 : (lastelt :: heap.dropLast).Perm heap := by
        have hc := (List.perm_append_singleton lastelt heap.dropLast).symm
        rwa [hdecomp] at hc
      exact (c1.trans c2).trans c3

/-! ### The tree built by `_build_tree`: leaf multiset preservation -/

theorem heappop_some (heap : List HTree) (hne : heap ≠ []) :
    ∃ x h', heappop heap = some (x, h') := by
  rw [heappop]
  rcases hlast : heap.getLast? with _ | lastelt
  · have hq := List.getLast?_eq_getLast heap hne
    rw [hlast] at hq
    exact absurd hq (by simp)
  · simp only
    by_cases hrest : heap.dropLast = []
    · rw [if_pos hrest]
      exact ⟨lastelt, [], rfl⟩
    · rw [if_neg hrest]
      exact ⟨_, _, rfl⟩

theorem buildTreeAux_singleton (fuel : ℕ) (t : HTree) : buildTreeAux fuel [t] = some t := by
  cases fuel with
  | zero => rfl
  | succ fuel =>
    rw [buildTreeAux, if_pos (by simp)]
    rfl

theorem buildTreeAux_spec (fuel : ℕ) :
    ∀ (heap : List HTree), heap.length ≤ fuel + 1 → 1 ≤ heap.length →
    ∃ r, buildTreeAux fuel heap = some r ∧ (tleaves r).Perm (heap.flatMap tleaves) ∧
      (2 ≤ heap.length → ∃ f a b, r = HTree.branch f a b) := by
  induction fuel with
  | zero =>
    intro heap h1 h2
    obtain ⟨t, rfl⟩ : ∃ t, heap = [t] := by
      cases heap with
      | nil => simp at h2
      | cons a l =>
        cases l with
        | nil => exact ⟨a, rfl⟩
        | cons b m => simp at h1
    exact ⟨t, rfl, by simp, fun hc => by simp at hc⟩
  | succ fuel ih =>
    intro heap h1 h2
    by_cases hlen : heap.length ≤ 1
    · obtain ⟨t, rfl⟩ : ∃ t, heap = [t] := by
        cases heap with
        | nil => simp at h2
        | cons a l =>
          cases l with
          | nil => exact ⟨a, rfl⟩
          | cons b m => simp at hlen
      exact ⟨t, buildTreeAux_singleton _ t, by simp, fun hc => by simp at hc⟩
    · push_neg at hlen
      obtain ⟨x1, h1', hp1⟩ := heappop_some heap (by intro hh; subst hh; simp at hlen)
      have hperm1 := heappop_perm heap x1 h1' hp1
      have hlen1 : h1'.length + 1 = heap.length := by simpa using hperm1.length_eq
      obtain ⟨x2, h2', hp2⟩ := heappop_some h1'
        (by intro hh; subst hh; simp at hlen1; omega)
      have hperm2 := heappop_perm h1' x2 h2' hp2
      have hlen2 : h2'.length + 1 = h1'.length := by simpa using hperm2.length_eq
      have hpushperm := heappush_perm h2' (HTree.branch (x1.freq + x2.freq) x1 x2)
      have hpushlen : (heappush h2' (HTree.branch (x1.freq + x2.freq) x1 x2)).length =
          h2'.length + 1 := by
        rw [hpushperm.length_eq]
        simp
      have hflat : ((heappush h2' (HTree.branch (x1.freq + x2.freq) x1 x2)).flatMap
          tleaves).Perm (heap.flatMap tleaves) := by
        refine (List.Perm.flatMap_right tleaves hpushperm).trans ?_
        have e1 : (h2' ++ [HTree.branch (x1.freq + x2.freq) x1 x2]).flatMap tleaves =
            h2'.flatMap tleaves ++ (tleaves x1 ++ tleaves x2) := by
          rw [List.flatMap_append]
          simp [tleaves]
        rw [e1]
        have e2 : ((x2 :: h2').flatMap tleaves) = tleaves x2 ++ h2'.flatMap tleaves := rfl
        have e3 : ((x1 :: h1').flatMap tleaves) = tleaves x1 ++ h1'.flatMap tleaves := rfl
        have p2 : (tleaves x2 ++ h2'.flatMap tleaves).Perm (h1'.flatMap tleaves) := by
          rw [← e2]
          exact List.Perm.flatMap_right tleaves hperm2
        have p1 : (tleaves x1 ++ h1'.flatMap tleaves).Perm (heap.flatMap tleaves) := by
          rw [← e3]
          exact List.Perm.flatMap_right tleaves hperm1
        have q1 : (h2'.flatMap tleaves ++ (tleaves x1 ++ tleaves x2)).Perm
            (tleaves x1 ++ tleaves x2 ++ h2'.flatMap tleaves) := List.perm_append_comm
        have q2 : tleaves x1 ++ tleaves x2 ++ h2'.flatMap tleaves =
            tleaves x1 ++ (tleaves x2 ++ h2'.flatMap tleaves) := by
          rw [List.append_assoc]
        have q3 : (tleaves x1 ++ (tleaves x2 ++ h2'.flatMap tleaves)).Perm
            (tleaves x1 ++ h1'.flatMap tleaves) := p2.append_left (tleaves x1)
        exact ((q1.trans (q2 ▸ List.Perm.refl _)).trans q3).trans p1
      have heval : buildTreeAux (fuel + 1) heap =
          buildTreeAux fuel (heappush h2' (HTree.branch (x1.freq + x2.freq) x1 x2)) := by
        rw [buildTreeAux, if_neg (by omega), hp1]
        have hstep2 : (do
            let p2 ← heappop h1'
            buildTreeAux fuel (heappush p2.2 (HTree.branch (x1.freq + p2.1.freq) x1 p2.1))
            : Option HTree) =
            buildTreeAux fuel (heappush h2' (HTree.branch (x1.freq + x2.freq) x1 x2)) := by
          rw [hp2]
          rfl
        exact hstep2
      rw [heval]
      by_cases hsmall : h2' = []
      · subst hsmall
        have hpush : heappush [] (HTree.branch (x1.freq + x2.freq) x1 x2) =
            [HTree.branch (x1.freq + x2.freq) x1 x2] := rfl
        rw [hpush]
        refine ⟨HTree.branch (x1.freq + x2.freq) x1 x2, buildTreeAux_singleton _ _, ?_,
          fun _ => ⟨_, _, _, rfl⟩⟩
        rw [hpush] at hflat
        simpa using hflat
      · have hl2 : 1 ≤ h2'.length := List.length_pos.mpr hsmall
        obtain ⟨r, hr, hleaves, hbranch⟩ := ih
          (heappush h2' (HTree.branch (x1.freq + x2.freq) x1 x2))
          (by omega) (by omega)
        exact ⟨r, hr, hleaves.trans hflat, fun _ => hbranch (by omega)⟩

theorem flatMap_initialHeap (freq : List (ℕ × ℕ)) :
    (initialHeap freq).flatMap tleaves = freq.map Prod.fst := by
  rw [initialHeap, List.flatMap_map]
  induction freq with
  | nil => rfl
  | cons p t ih =>
    rw [List.flatMap_cons, ih]
    rfl

theorem buildTree_spec (freq : List (ℕ × ℕ)) (h2 : 2 ≤ freq.length) :
    ∃ root, buildTree freq = some root ∧ (tleaves root).Perm (freq.map Prod.fst) ∧
      ∃ f a b, root = HTree.branch f a b := by
  have hlen0 : (initialHeap freq).length = freq.length := by simp [initialHeap]
  obtain ⟨x, h', hp⟩ := heappop_some (initialHeap freq)
    (by intro hh; rw [hh] at hlen0; simp at hlen0; omega)
  have hperm := heappop_perm _ _ _ hp
  have hpermh1 : (heappush h' x).Perm (initialHeap freq) :=
    (heappush_perm h' x).trans ((List.perm_append_singleton x h').trans hperm)
  have hlenh1 : (heappush h' x).length = freq.length := by
    rw [hpermh1.length_eq, hlen0]
  obtain ⟨r, hr, hleaves, hbranch⟩ := buildTreeAux_spec (heappush h' x).length (heappush h' x)
    (by omega) (by omega)
  refine ⟨r, ?_, ?_, hbranch (by omega)⟩
  · have heval : buildTree freq = buildTreeAux (heappush h' x).length (heappush h' x) := by
      rw [buildTree, hfixHeap, hp]
      rfl
    rw [heval]
    exact hr
  · refine hleaves.trans ?_
    refine (List.Perm.flatMap_right tleaves hpermh1).trans ?_
    rw [flatMap_initialHeap]

/-! ### Claims C10 and C1: 256 distinct symbols overflow the count byte -/

theorem canonLoop_length (l : List (ℕ × ℕ)) :
    ∀ (c p : ℕ), (canonLoop l c p).length = l.length := by
  induction l with
  | nil => intro c p; rfl
  | cons q t ih =>
    intro c p
    obtain ⟨sym, ln⟩ := q
    rw [canonLoop]
    simp only [List.length_cons]
    rw [ih]

theorem buildCodeMap_keys (t : HTree) :
    ∀ pre, (buildCodeMap t pre).map Prod.fst = tleaves t := by
  induction t with
  | leaf f s => intro pre; rfl
  | branch f l r ihl ihr =>
    intro pre
    rw [buildCodeMap, tleaves, List.map_append, ihl, ihr]

theorem toCanonical_fst_length (m : List (ℕ × List Bool)) :
    (toCanonical m).1.length = m.length := by
  rw [toCanonical]
  simp only
  rw [canonLoop_length, List.length_map]
  rw [(perm_pySorted (symKeyLe (m.map fun p => (p.1, p.2.length))) (m.map Prod.fst)).length_eq]
  rw [List.length_map]

/-- Shared helper: with 256 distinct symbols, both encoders fail at the one-byte
symbol-count header write. -/
theorem encode_none_of_256_distinct (data : List ℕ) (h : (counter data).length = 256) :
    hEncode data = none ∧ aEncode data = none := by
  have hne : data ≠ [] := by
    intro hh
    subst hh
    simp [counter] at h
  have hne1 : ¬ (counter data).length = 1 := by omega
  constructor
  · rw [hEncode, if_neg hne, if_neg hne1]
    obtain ⟨root, hroot, hperm, -⟩ := buildTree_spec (counter data) (by omega)
    rw [hroot]
    have hcl : (toCanonical (buildCodeMap root [])).1.length = 256 := by
      rw [toCanonical_fst_length]
      have : (buildCodeMap root []).length = (tleaves root).length := by
        rw [← buildCodeMap_keys root [], List.length_map]
      rw [this, hperm.length_eq, List.length_map, h]
    rcases h4 : toBytesBE 4 data.length with _ | v
    · simp [h4]
    · simp [h4, hcl, byte1]
  · rw [aEncode, if_neg hne, if_neg hne1]
    have hsl : (sortedKeys (counter data)).length = 256 := by
      rw [sortedKeys, (perm_pySorted natLe _).length_eq, List.length_map]
      exact h
    rcases h4 : toBytesBE 4 data.length with _ | v
    · simp [h4]
    · simp [h4, hsl, byte1]

/-- C10: for every input with exactly 256 distinct byte values, both encoders
raise when writing the one-byte distinct-symbol-count header field (256 does
not fit in a byte) and return no blob, modeled as `none`. -/
theorem claim10_256_distinct_raises (data : List ℕ)
    (h : (counter data).length = 256) :
    hEncode data = none ∧ aEncode data = none :=
  encode_none_of_256_distinct data h

set_option maxRecDepth 40000 in
/-- Witness for C10 on the input containing every byte value once. -/
theorem claim10_256_distinct_raises_witness :
    (counter (List.range 256)).length = 256 ∧
    (hEncode (List.range 256) = none ∧ aEncode (List.range 256) = none) :=
  ⟨by decide, claim10_256_distinct_raises (List.range 256) (by decide)⟩

set_option maxRecDepth 40000 in
/-- C1: the round-trip law fails on the code as written: for the byte sequence
containing every byte value once, both encoders raise (`bytes([256])` in the
header write), so `decode(encode(d)) = d` cannot hold; the docstring
"Should support full byte-range symbols" and the spec say it must.
The spec is the intent; the code is the slip. -/
theorem claim1_roundtrip_fails_on_full_alphabet :
    hEncode (List.range 256) = none ∧ aEncode (List.range 256) = none :=
  encode_none_of_256_distinct (List.range 256) (by decide)

/-! ### Claim C4/C3 support: fixed-width binary strings -/

theorem padBits_length (l : ℕ) : ∀ c, (padBits c l).length = l := by
  induction l with
  | zero => intro c; rfl
  | succ k ih =>
    intro c
    rw [padBits, List.length_append, ih]
    rfl

theorem natBitsAux_eq (c : ℕ) : ∀ fuel₁ fuel₂, c ≤ fuel₁ → c ≤ fuel₂ →
    natBitsAux fuel₁ c = natBitsAux fuel₂ c := by
  induction c using Nat.strong_induction_on with
  | _ c ih =>
    intro fuel₁ fuel₂ h₁ h₂
    match c, fuel₁, fuel₂ with
    | 0, f₁, f₂ => cases f₁ <;> cases f₂ <;> rfl
    | n + 1, f₁ + 1, f₂ + 1 =>
      rw [natBitsAux, natBitsAux]
      have hlt : (n + 1) / 2 < n + 1 := Nat.div_lt_self (by omega) (by omega)
      rw [ih ((n + 1) / 2) hlt f₁ f₂ (by omega) (by omega)]

theorem natBits_step (c : ℕ) (h : 1 ≤ c) :
    natBits c = natBits (c / 2) ++ [decide (c % 2 = 1)] := by
  match c, h with
  | n + 1, _ =>
    rw [natBits, natBitsAux, natBits]
    have hle : (n + 1) / 2 ≤ n := by omega
    rw [natBitsAux_eq ((n + 1) / 2) n ((n + 1) / 2) hle (le_refl _)]

theorem fmtBinPad_step (c k : ℕ) (hk : 1 ≤ k) :
    fmtBinPad c (k + 1) = fmtBinPad (c / 2) k ++ [decide (c % 2 = 1)] := by
  have hrep : ∀ m : ℕ, 1 ≤ m → List.replicate m false = List.replicate (m - 1) false ++ [false] := by
    intro m hm
    match m, hm with
    | j + 1, _ => rw [List.replicate_succ' j false]; rfl
  match c with
  | 0 =>
    have hL : fmtBinPad 0 (k + 1) = List.replicate k false ++ [false] := rfl
    have hR : fmtBinPad 0 k = List.replicate (k - 1) false ++ [false] := rfl
    rw [show (0 : ℕ) / 2 = 0 from rfl, hL, hR, ← hrep k hk]
    simp
  | 1 =>
    have hL : fmtBinPad 1 (k + 1) = List.replicate k false ++ [true] := rfl
    have hR : fmtBinPad 0 k = List.replicate (k - 1) false ++ [false] := rfl
    rw [show (1 : ℕ) / 2 = 0 from rfl, hL, hR, hrep k hk]
    simp
  | n + 2 =>
    have hstep : binStr (n + 2) = binStr ((n + 2) / 2) ++ [decide ((n + 2) % 2 = 1)] := by
      rw [binStr, binStr, if_neg (by omega), if_neg (by omega)]
      exact natBits_step (n + 2) (by omega)
    rw [fmtBinPad, fmtBinPad, hstep]
    rw [List.length_append, List.length_cons, List.length_nil]
    rw [Nat.succ_sub_succ_eq_sub]
    simp [List.append_assoc]

theorem fmtBinPad_eq_padBits (l : ℕ) : ∀ c, 1 ≤ l → c < 2 ^ l →
    fmtBinPad c l = padBits c l := by
  induction l with
  | zero => intro c h; omega
  | succ k ih =>
    intro c _ hc
    match k with
    | 0 =>
      match c, hc with
      | 0, _ => decide
      | 1, _ => decide
    | j + 1 =>
      rw [fmtBinPad_step c (j + 1) (by omega), padBits]
      have hcd : c / 2 < 2 ^ (j + 1) := by
        rw [Nat.div_lt_iff_lt_mul (by omega)]
        calc c < 2 ^ (j + 1 + 1) := hc
          _ = 2 ^ (j + 1) * 2 := by rw [pow_succ]
      rw [ih (c / 2) (by omega) hcd]

theorem take_padBits (k : ℕ) : ∀ m c, (padBits c (m + k)).take m = padBits (c / 2 ^ k) m := by
  induction k with
  | zero =>
    intro m c
    rw [Nat.add_zero, pow_zero, Nat.div_one]
    exact List.take_of_length_le (by rw [padBits_length])
  | succ j ih =>
    intro m c
    rw [show m + (j + 1) = (m + j) + 1 from rfl, padBits]
    rw [List.take_append_of_le_length (by rw [padBits_length]; omega)]
    rw [ih m (c / 2)]
    rw [Nat.div_div_eq_div_mul, ← pow_succ']

theorem padBits_mod (l : ℕ) : ∀ a b, padBits a l = padBits b l → a % 2 ^ l = b % 2 ^ l := by
  induction l with
  | zero => intro a b _; rw [pow_zero, Nat.mod_one, Nat.mod_one]
  | succ k ih =>
    intro a b h
    rw [padBits, padBits] at h
    obtain ⟨h1, h2⟩ := List.append_inj' h (by rfl)
    have hbit : a % 2 = b % 2 := by
      have := List.head_eq_of_cons_eq h2
      have ha2 : a % 2 < 2 := Nat.mod_lt _ (by omega)
      have hb2 : b % 2 < 2 := Nat.mod_lt _ (by omega)
      by_cases h1a : a % 2 = 1 <;> by_cases h1b : b % 2 = 1 <;>
        simp [h1a, h1b] at this ⊢ <;> omega
    have hdiv := ih (a / 2) (b / 2) h1
    have hma : a % (2 * 2 ^ k) = a % 2 + 2 * (a / 2 % 2 ^ k) := Nat.mod_mul
    have hmb : b % (2 * 2 ^ k) = b % 2 + 2 * (b / 2 % 2 ^ k) := Nat.mod_mul
    rw [pow_succ', hma, hmb, hbit, hdiv]

theorem listPref_take {α : Type} (a b : List α) (h : listPref a b) :
    b.take a.length = a := by
  obtain ⟨t, ht⟩ := h
  rw [← ht]
  exact List.take_left a t

theorem listPref_length {α : Type} (a b : List α) (h : listPref a b) :
    a.length ≤ b.length := by
  obtain ⟨t, ht⟩ := h
  rw [← ht, List.length_append]
  omega

/-! ### Claim C4 support: the Kraft sum of a Huffman tree -/

theorem kraftQ_nil : kraftQ [] = 0 := rfl

theorem kraftQ_cons (d : ℕ) (ds : List ℕ) :
    kraftQ (d :: ds) = (1 / 2) ^ d + kraftQ ds := by
  rw [kraftQ, kraftQ, List.map_cons, List.sum_cons]

theorem kraftQ_append (l₁ l₂ : List ℕ) : kraftQ (l₁ ++ l₂) = kraftQ l₁ + kraftQ l₂ := by
  rw [kraftQ, kraftQ, kraftQ, List.map_append, List.sum_append]

theorem kraftQ_map_succ (ds : List ℕ) : kraftQ (ds.map (· + 1)) = kraftQ ds / 2 := by
  induction ds with
  | nil => simp [kraftQ]
  | cons d t ih =>
    rw [List.map_cons, kraftQ_cons, kraftQ_cons, ih]
    ring

theorem kraftQ_nonneg (ds : List ℕ) : 0 ≤ kraftQ ds := by
  refine List.sum_nonneg ?_
  intro x hx
  obtain ⟨d, -, rfl⟩ := List.mem_map.mp hx
  positivity

theorem kraftQ_perm {ds₁ ds₂ : List ℕ} (h : ds₁.Perm ds₂) : kraftQ ds₁ = kraftQ ds₂ :=
  (h.map fun d => ((1 : ℚ) / 2) ^ d).sum_eq

theorem kraftQ_tdepths (t : HTree) : kraftQ (tdepths t) = 1 := by
  induction t with
  | leaf f s => simp [tdepths, kraftQ]
  | branch f l r ihl ihr =>
    rw [tdepths, kraftQ_append, kraftQ_map_succ, kraftQ_map_succ, ihl, ihr]
    norm_num

theorem tdepths_branch_pos (f : ℕ) (l r : HTree) :
    ∀ d ∈ tdepths (HTree.branch f l r), 1 ≤ d := by
  intro d hd
  rw [tdepths, List.mem_append] at hd
  rcases hd with h | h <;> obtain ⟨e, -, rfl⟩ := List.mem_map.mp h <;> omega

theorem buildCodeMap_depths (t : HTree) : ∀ pre : List Bool, pre ≠ [] →
    (buildCodeMap t pre).map (fun p => p.2.length) = (tdepths t).map (fun d => d + pre.length) := by
  induction t with
  | leaf f s =>
    intro pre hpre
    rw [buildCodeMap, tdepths, if_neg hpre]
    simp
  | branch f l r ihl ihr =>
    intro pre _
    rw [buildCodeMap, tdepths, List.map_append, List.map_append]
    rw [ihl (pre ++ [false]) (by simp), ihr (pre ++ [true]) (by simp)]
    rw [List.map_map, List.map_map]
    congr 1 <;> apply List.map_congr_left <;> intro d _ <;>
      simp [Function.comp, List.length_append] <;> omega

theorem buildCodeMap_depths_root (f : ℕ) (a b : HTree) :
    (buildCodeMap (HTree.branch f a b) []).map (fun p => p.2.length) =
      tdepths (HTree.branch f a b) := by
  rw [buildCodeMap, tdepths, List.map_append]
  simp only [List.nil_append]
  rw [buildCodeMap_depths a [false] (by simp), buildCodeMap_depths b [true] (by simp)]
  congr 1

/-! ### Claim C4 support: the numeric canonical-code assignment -/

theorem canonCodes_fst (ps : List (ℕ × ℕ)) : ∀ c p,
    (canonCodes ps c p).map Prod.fst = ps.map Prod.fst := by
  induction ps with
  | nil => intro c p; rfl
  | cons q t ih =>
    intro c p
    obtain ⟨sym, ln⟩ := q
    rw [canonCodes]
    simp only [List.map_cons]
    rw [ih]

theorem canonCodes_key (ps : List (ℕ × ℕ)) : ∀ c p,
    (canonCodes ps c p).map (fun e => (e.1, e.2.2)) = ps := by
  induction ps with
  | nil => intro c p; rfl
  | cons q t ih =>
    intro c p
    obtain ⟨sym, ln⟩ := q
    rw [canonCodes]
    simp only [List.map_cons]
    rw [ih]

theorem canonLoop_eq_canonCodes (ps : List (ℕ × ℕ)) : ∀ c p,
    canonLoop ps c p = (canonCodes ps c p).map (fun e => (e.1, fmtBinPad e.2.1 e.2.2)) := by
  induction ps with
  | nil => intro c p; rfl
  | cons q t ih =>
    intro c p
    obtain ⟨sym, ln⟩ := q
    rw [canonLoop, canonCodes]
    simp only [List.map_cons]
    rw [ih]

theorem canonCodes_lower (ps : List (ℕ × ℕ)) : ∀ code prevLen,
    List.Chain' (· ≤ ·) (prevLen :: ps.map Prod.snd) →
    ∀ e ∈ canonCodes ps code prevLen,
      prevLen ≤ e.2.2 ∧ code * 2 ^ (e.2.2 - prevLen) ≤ e.2.1 := by
  induction ps with
  | nil => intro code prevLen _ e he; exact absurd he (List.not_mem_nil e)
  | cons q t ih =>
    intro code prevLen hch e he
    obtain ⟨sym, ln⟩ := q
    rw [List.map_cons, List.chain'_cons'] at hch
    obtain ⟨hhead, hch'⟩ := hch
    have hpl : prevLen ≤ ln := by
      have := hhead ln
      simp at this
      exact this
    rw [canonCodes] at he
    simp only [List.mem_cons] at he
    rcases he with he | he
    · subst he
      refine ⟨hpl, ?_⟩
      simp only
      rw [Nat.shiftLeft_eq]
    · have := ih (code <<< (ln - prevLen) + 1) ln hch' e he
      obtain ⟨h1, h2⟩ := this
      refine ⟨le_trans hpl h1, ?_⟩
      have hsplit : e.2.2 - prevLen = (ln - prevLen) + (e.2.2 - ln) := by omega
      rw [hsplit, pow_add, ← Nat.mul_assoc]
      calc code * 2 ^ (ln - prevLen) * 2 ^ (e.2.2 - ln)
          ≤ (code <<< (ln - prevLen) + 1) * 2 ^ (e.2.2 - ln) := by
            rw [Nat.shiftLeft_eq]
            exact Nat.mul_le_mul_right _ (by omega)
        _ ≤ e.2.1 := h2

theorem canonCodes_pairwise (ps : List (ℕ × ℕ)) : ∀ code prevLen,
    List.Chain' (· ≤ ·) (prevLen :: ps.map Prod.snd) →
    List.Pairwise (fun a b => a.2.2 ≤ b.2.2 ∧ (a.2.1 + 1) * 2 ^ (b.2.2 - a.2.2) ≤ b.2.1)
      (canonCodes ps code prevLen) := by
  induction ps with
  | nil => intro code prevLen _; exact List.Pairwise.nil
  | cons q t ih =>
    intro code prevLen hch
    obtain ⟨sym, ln⟩ := q
    rw [List.map_cons, List.chain'_cons'] at hch
    obtain ⟨-, hch'⟩ := hch
    rw [canonCodes]
    refine List.Pairwise.cons ?_ (ih _ ln hch')
    intro e he
    have := canonCodes_lower t (code <<< (ln - prevLen) + 1) ln hch' e he
    exact ⟨this.1, this.2⟩

theorem canonCodes_bound (ps : List (ℕ × ℕ)) : ∀ (code prevLen : ℕ),
    List.Chain' (· ≤ ·) (prevLen :: ps.map Prod.snd) →
    (code : ℚ) * (1 / 2) ^ prevLen + kraftQ (ps.map Prod.snd) ≤ 1 →
    ∀ e ∈ canonCodes ps code prevLen, e.2.1 < 2 ^ e.2.2 := by
  induction ps with
  | nil => intro code prevLen _ _ e he; exact absurd he (List.not_mem_nil e)
  | cons q t ih =>
    intro code prevLen hch hinv e he
    obtain ⟨sym, ln⟩ := q
    rw [List.map_cons, List.chain'_cons'] at hch
    obtain ⟨hhead, hch'⟩ := hch
    have hpl : prevLen ≤ ln := by
      have := hhead ln
      simp at this
      exact this
    rw [List.map_cons, kraftQ_cons] at hinv
    have hshift : ((code <<< (ln - prevLen) : ℕ) : ℚ) * (1 / 2) ^ ln =
        (code : ℚ) * (1 / 2) ^ prevLen := by
      rw [Nat.shiftLeft_eq]
      push_cast
      have hln : ln = prevLen + (ln - prevLen) := by omega
      rw [hln, pow_add, show prevLen + (ln - prevLen) - prevLen = ln - prevLen from by omega]
      have h2k : (2 : ℚ) ^ (ln - prevLen) * (1 / 2) ^ (ln - prevLen) = 1 := by
        rw [← mul_pow]
        norm_num
      calc (code : ℚ) * 2 ^ (ln - prevLen) * ((1 / 2) ^ prevLen * (1 / 2) ^ (ln - prevLen))
          = (code : ℚ) * (1 / 2) ^ prevLen * (2 ^ (ln - prevLen) * (1 / 2) ^ (ln - prevLen)) := by
            ring
        _ = (code : ℚ) * (1 / 2) ^ prevLen := by rw [h2k, mul_one]
    have hinv' : ((code <<< (ln - prevLen) + 1 : ℕ) : ℚ) * (1 / 2) ^ ln +
        kraftQ (t.map Prod.snd) ≤ 1 := by
      push_cast
      have : ((code <<< (ln - prevLen) : ℕ) + 1 : ℚ) * (1 / 2) ^ ln =
          ((code <<< (ln - prevLen) : ℕ) : ℚ) * (1 / 2) ^ ln + (1 / 2) ^ ln := by ring
      rw [this, hshift]
      linarith
    rw [canonCodes] at he
    simp only [List.mem_cons] at he
    rcases he with he | he
    · subst he
      simp only
      have hk : (0 : ℚ) ≤ kraftQ (t.map Prod.snd) := kraftQ_nonneg _
      have hle : ((code <<< (ln - prevLen) : ℕ) + 1 : ℚ) * (1 / 2) ^ ln ≤ 1 := by linarith
      have hpow : ((1 : ℚ) / 2) ^ ln = 1 / 2 ^ ln := by
        rw [div_pow, one_pow]
      rw [hpow, mul_one_div, div_le_one (by positivity)] at hle
      have hcast : ((code <<< (ln - prevLen) : ℕ) + 1 : ℚ) ≤ ((2 ^ ln : ℕ) : ℚ) := by
        push_cast
        exact hle
      have : (code <<< (ln - prevLen)) + 1 ≤ 2 ^ ln := by exact_mod_cast hcast
      omega
    · exact ih (code <<< (ln - prevLen) + 1) ln hch' hinv' e he

/-! ### Generic association-list and pairwise helpers -/

theorem pairwise_mem_cases {α : Type} {R : α → α → Prop} :
    ∀ {l : List α}, List.Pairwise R l → ∀ {a b : α}, a ∈ l → b ∈ l →
      a = b ∨ R a b ∨ R b a := by
  intro l h
  induction h with
  | nil => intro a b ha _; exact absurd ha (List.not_mem_nil a)
  | cons hx _ ih =>
    intro a b ha hb
    rcases List.mem_cons.mp ha with ha1 | ha1 <;> rcases List.mem_cons.mp hb with hb1 | hb1
    · subst ha1; subst hb1; exact Or.inl rfl
    · subst ha1; exact Or.inr (Or.inl (hx b hb1))
    · subst hb1; exact Or.inr (Or.inr (hx a ha1))
    · exact ih ha1 hb1

theorem fst_nodup_inj {α β : Type} {l : List (α × β)}
    (hn : (l.map Prod.fst).Nodup) {a b : α × β}
    (ha : a ∈ l) (hb : b ∈ l) (h : a.1 = b.1) : a = b := by
  have hpw : List.Pairwise (fun p q : α × β => p.1 ≠ q.1) l := List.pairwise_map.mp hn
  rcases pairwise_mem_cases hpw ha hb with h1 | h1 | h1
  · exact h1
  · exact absurd h h1
  · exact absurd h.symm h1

theorem lookup_none_of_forall {α β : Type} [BEq α] [LawfulBEq α] (l : List (α × β)) (k : α)
    (h : ∀ e ∈ l, e.1 ≠ k) : l.lookup k = none := by
  induction l with
  | nil => rfl
  | cons e t ih =>
    obtain ⟨k', v'⟩ := e
    have hk : ¬ k = k' := fun hh => h (k', v') (List.mem_cons_self _ _) hh.symm
    have hb : (k == k') = false := by simpa using hk
    simp only [List.lookup, hb]
    exact ih fun e he => h e (List.mem_cons_of_mem _ he)

theorem lookup_of_mem_nodup {α β : Type} [BEq α] [LawfulBEq α] (l : List (α × β)) (k : α) (v : β)
    (hn : (l.map Prod.fst).Nodup) (hm : (k, v) ∈ l) : l.lookup k = some v := by
  induction l with
  | nil => exact absurd hm (List.not_mem_nil _)
  | cons e t ih =>
    obtain ⟨k', v'⟩ := e
    rw [List.map_cons, List.nodup_cons] at hn
    rcases List.mem_cons.mp hm with h1 | h1
    · injection h1 with hk hv
      subst hk
      subst hv
      simp [List.lookup]
    · have hne : ¬ k = k' := by
        intro hh
        subst hh
        exact hn.1 (List.mem_map.mpr ⟨(k, v), h1, rfl⟩)
      have hb : (k == k') = false := by simpa using hne
      simp only [List.lookup, hb]
      exact ih hn.2 h1

theorem canonLoop_fst (ps : List (ℕ × ℕ)) : ∀ c p,
    (canonLoop ps c p).map Prod.fst = ps.map Prod.fst := by
  induction ps with
  | nil => intro c p; rfl
  | cons q t ih =>
    intro c p
    obtain ⟨sym, ln⟩ := q
    rw [canonLoop]
    simp only [List.map_cons]
    rw [ih]

/-- All structural facts about the canonical-code assignment, stated over the
abstract pieces of `toCanonical` (the lengths dict, the sorted symbol order,
the (symbol, length) pairs and the resulting map): distinct symbols, distinct
code strings, code lengths at least one, prefix-freeness, and the replay
equation used by the decoder. -/
theorem canon_kernel (lengths : List (ℕ × ℕ)) (keys order : List ℕ)
    (pairs : List (ℕ × ℕ)) (canon : List (ℕ × List Bool))
    (hkeys_nd : keys.Nodup)
    (hlen_fst : lengths.map Prod.fst = keys)
    (horder : order = pySorted (symKeyLe lengths) keys)
    (hpairs : pairs = order.map fun s => (s, lookup0 lengths s))
    (hcanon : canon = canonLoop pairs 0 0)
    (hkraft : kraftQ (lengths.map Prod.snd) = 1)
    (hpos : ∀ d ∈ lengths.map Prod.snd, 1 ≤ d) :
    (canon.map Prod.fst).Nodup ∧
    (canon.map Prod.snd).Nodup ∧
    (∀ p ∈ canon, 1 ≤ p.2.length) ∧
    (∀ p ∈ canon, ∀ q ∈ canon, p.1 ≠ q.1 → ¬ listPref p.2 q.2) ∧
    List.Pairwise (fun p q => pairLe p q = true)
      (canon.map fun p => (p.1, lookup0 lengths p.1)) ∧
    canonLoop (canon.map fun p => (p.1, lookup0 lengths p.1)) 0 0 = canon := by
  have htot : ∀ a b, symKeyLe lengths a b ∨ symKeyLe lengths b a := by
    intro a b
    simp only [symKeyLe, decide_eq_true_eq]
    omega
  have htrans : ∀ a b c, symKeyLe lengths a b → symKeyLe lengths b c →
      symKeyLe lengths a c := by
    intro a b c hab hbc
    simp only [symKeyLe, decide_eq_true_eq] at hab hbc ⊢
    omega
  have horder_perm : order.Perm keys := by rw [horder]; exact perm_pySorted _ _
  have horder_nd : order.Nodup := horder_perm.nodup_iff.mpr hkeys_nd
  have hvals : keys.map (lookup0 lengths) = lengths.map Prod.snd := by
    rw [← hlen_fst]
    exact map_lookup0_keys lengths (by rw [hlen_fst]; exact hkeys_nd)
  have hpairs_fst : pairs.map Prod.fst = order := by
    have h1 : pairs.map Prod.fst = order.map (fun s => s) := by
      rw [hpairs, List.map_map]
      exact List.map_congr_left fun a _ => rfl
    rw [h1, List.map_id']
  have hpairs_snd : pairs.map Prod.snd = order.map (lookup0 lengths) := by
    rw [hpairs, List.map_map]
    exact List.map_congr_left fun a _ => rfl
  have hsnd_perm : (pairs.map Prod.snd).Perm (lengths.map Prod.snd) := by
    rw [hpairs_snd, ← hvals]
    exact horder_perm.map _
  have hkraft' : kraftQ (pairs.map Prod.snd) = 1 := (kraftQ_perm hsnd_perm).trans hkraft
  have hpos' : ∀ q ∈ pairs, 1 ≤ q.2 := by
    intro q hq
    have hm : q.2 ∈ pairs.map Prod.snd := List.mem_map_of_mem _ hq
    exact hpos _ (hsnd_perm.mem_iff.mp hm)
  have hsorted : List.Pairwise (fun a b => symKeyLe lengths a b = true) order := by
    rw [horder]
    exact sorted_pySorted _ htot htrans keys
  have hpw_pairs : List.Pairwise (fun p q => pairLe p q = true) pairs := by
    rw [hpairs]
    refine List.pairwise_map.mpr (hsorted.imp ?_)
    intro a b h
    simp only [symKeyLe, decide_eq_true_eq] at h
    simp only [pairLe, decide_eq_true_eq]
    exact h
  have hchain : List.Chain' (· ≤ ·) ((0 : ℕ) :: pairs.map Prod.snd) := by
    rw [List.chain'_cons']
    refine ⟨fun y _ => Nat.zero_le y, ?_⟩
    refine List.Pairwise.chain' ?_
    refine List.pairwise_map.mpr (hpw_pairs.imp ?_)
    intro a b h
    simp only [pairLe, decide_eq_true_eq] at h
    omega
  have hbound : ∀ e ∈ canonCodes pairs 0 0, e.2.1 < 2 ^ e.2.2 := by
    refine canonCodes_bound pairs 0 0 hchain ?_
    rw [hkraft']
    norm_num
  have hpw_cc := canonCodes_pairwise pairs 0 0 hchain
  have hlen_cc : ∀ e ∈ canonCodes pairs 0 0, 1 ≤ e.2.2 := by
    intro e he
    have hm : (e.1, e.2.2) ∈ pairs := by
      rw [← canonCodes_key pairs 0 0]
      exact List.mem_map_of_mem _ he
    exact hpos' (e.1, e.2.2) hm
  have hcanon_pad : canon =
      (canonCodes pairs 0 0).map (fun e => (e.1, padBits e.2.1 e.2.2)) := by
    rw [hcanon, canonLoop_eq_canonCodes]
    refine List.map_congr_left fun e he => ?_
    show (e.1, fmtBinPad e.2.1 e.2.2) = (e.1, padBits e.2.1 e.2.2)
    rw [fmtBinPad_eq_padBits e.2.2 e.2.1 (hlen_cc e he) (hbound e he)]
  have hcfst : canon.map Prod.fst = order := by
    rw [hcanon, canonLoop_fst, hpairs_fst]
  have hF1 : (canon.map Prod.fst).Nodup := by rw [hcfst]; exact horder_nd
  have hF3 : ∀ p ∈ canon, 1 ≤ p.2.length := by
    intro p hp
    rw [hcanon_pad] at hp
    obtain ⟨e, he, rfl⟩ := List.mem_map.mp hp
    show 1 ≤ (padBits e.2.1 e.2.2).length
    rw [padBits_length]
    exact hlen_cc e he
  have hF4 : ∀ p ∈ canon, ∀ q ∈ canon, p.1 ≠ q.1 → ¬ listPref p.2 q.2 := by
    intro p hp q hq hne hpref
    rw [hcanon_pad] at hp hq
    obtain ⟨a, ha, rfl⟩ := List.mem_map.mp hp
    obtain ⟨b, hb, rfl⟩ := List.mem_map.mp hq
    obtain ⟨sa, ca, la⟩ := a
    obtain ⟨sb, cb, lb⟩ := b
    have hne' : sa ≠ sb := hne
    have hpref' : listPref (padBits ca la) (padBits cb lb) := hpref
    have hca : ca < 2 ^ la := hbound (sa, ca, la) ha
    have hcb : cb < 2 ^ lb := hbound (sb, cb, lb) hb
    rcases pairwise_mem_cases hpw_cc ha hb with heq | hR | hR
    · exact hne' (congrArg (fun e => e.1) heq)
    · have hlab : la ≤ lb := hR.1
      have hcod : (ca + 1) * 2 ^ (lb - la) ≤ cb := hR.2
      have htake1 : (padBits cb lb).take la = padBits ca la := by
        have h := listPref_take _ _ hpref'
        rw [padBits_length] at h
        exact h
      have htake2 : (padBits cb lb).take la = padBits (cb / 2 ^ (lb - la)) la := by
        have h := take_padBits (lb - la) la cb
        rw [show la + (lb - la) = lb from by omega] at h
        exact h
      have hmod := padBits_mod la (cb / 2 ^ (lb - la)) ca (htake2.symm.trans htake1)
      have hdlt : cb / 2 ^ (lb - la) < 2 ^ la := by
        rw [Nat.div_lt_iff_lt_mul (by positivity)]
        calc cb < 2 ^ lb := hcb
          _ = 2 ^ la * 2 ^ (lb - la) := by rw [← pow_add]; congr 1; omega
      have hdge : ca + 1 ≤ cb / 2 ^ (lb - la) := by
        rw [Nat.le_div_iff_mul_le (by positivity)]
        exact hcod
      rw [Nat.mod_eq_of_lt hdlt, Nat.mod_eq_of_lt hca] at hmod
      omega
    · have hlba : lb ≤ la := hR.1
      have hcod : (cb + 1) * 2 ^ (la - lb) ≤ ca := hR.2
      have hlen := listPref_length _ _ hpref'
      rw [padBits_length, padBits_length] at hlen
      have hlab : la = lb := le_antisymm hlen hlba
      obtain ⟨t, ht⟩ := hpref'
      have htlen : t.length = 0 := by
        have h := congrArg List.length ht
        rw [List.length_append, padBits_length, padBits_length] at h
        omega
      rw [List.eq_nil_of_length_eq_zero htlen, List.append_nil] at ht
      rw [hlab] at ht hca
      have hmod := padBits_mod lb ca cb ht
      rw [Nat.mod_eq_of_lt hca, Nat.mod_eq_of_lt hcb] at hmod
      rw [Nat.sub_eq_zero_of_le hlen, pow_zero, mul_one] at hcod
      omega
  have hF2core : List.Pairwise (fun a b : ℕ × ℕ × ℕ =>
      padBits a.2.1 a.2.2 ≠ padBits b.2.1 b.2.2) (canonCodes pairs 0 0) := by
    refine hpw_cc.imp_of_mem ?_
    intro a b ha hb hR heq
    have hca : a.2.1 < 2 ^ a.2.2 := hbound a ha
    have hcb : b.2.1 < 2 ^ b.2.2 := hbound b hb
    have hlen := congrArg List.length heq
    rw [padBits_length, padBits_length] at hlen
    rw [← hlen] at heq hcb
    have hmod := padBits_mod a.2.2 a.2.1 b.2.1 heq
    rw [Nat.mod_eq_of_lt hca, Nat.mod_eq_of_lt hcb] at hmod
    have hcod := hR.2
    rw [← hlen, Nat.sub_self, pow_zero, mul_one] at hcod
    omega
  have hF2 : (canon.map Prod.snd).Nodup := by
    rw [hcanon_pad, List.map_map]
    exact List.pairwise_map.mpr hF2core
  have hps_eq : (canon.map fun p => (p.1, lookup0 lengths p.1)) = pairs := by
    have h1 : (canon.map fun p => (p.1, lookup0 lengths p.1)) =
        (canon.map Prod.fst).map (fun s => (s, lookup0 lengths s)) := by
      rw [List.map_map]
      exact List.map_congr_left fun a _ => rfl
    rw [h1, hcfst, ← hpairs]
  have hF5 : List.Pairwise (fun p q => pairLe p q = true)
      (canon.map fun p => (p.1, lookup0 lengths p.1)) := by
    rw [hps_eq]
    exact hpw_pairs
  have hF6 : canonLoop (canon.map fun p => (p.1, lookup0 lengths p.1)) 0 0 = canon := by
    rw [hps_eq, ← hcanon]
  exact ⟨hF1, hF2, hF3, hF4, hF5, hF6⟩

/-- `canon_kernel` instantiated at `toCanonical cm`. -/
theorem canon_core (cm : List (ℕ × List Bool))
    (hnd : (cm.map Prod.fst).Nodup)
    (hkraft : kraftQ (cm.map fun p => p.2.length) = 1)
    (hpos : ∀ d ∈ cm.map (fun p => p.2.length), 1 ≤ d) :
    ((toCanonical cm).1.map Prod.fst).Nodup ∧
    ((toCanonical cm).1.map Prod.snd).Nodup ∧
    (∀ p ∈ (toCanonical cm).1, 1 ≤ p.2.length) ∧
    (∀ p ∈ (toCanonical cm).1,
      ∀ q ∈ (toCanonical cm).1, p.1 ≠ q.1 → ¬ listPref p.2 q.2) ∧
    List.Pairwise (fun p q => pairLe p q = true)
      ((toCanonical cm).1.map fun p => (p.1, lookup0 (toCanonical cm).2 p.1)) ∧
    canonLoop ((toCanonical cm).1.map fun p => (p.1, lookup0 (toCanonical cm).2 p.1)) 0 0 =
      (toCanonical cm).1 := by
  have hsnd : (toCanonical cm).2.map Prod.snd = cm.map (fun p => p.2.length) := by
    rw [show (toCanonical cm).2 = cm.map (fun p => (p.1, p.2.length)) from rfl, List.map_map]
    exact List.map_congr_left fun a _ => rfl
  have hfst : (toCanonical cm).2.map Prod.fst = cm.map Prod.fst := by
    rw [show (toCanonical cm).2 = cm.map (fun p => (p.1, p.2.length)) from rfl, List.map_map]
    exact List.map_congr_left fun a _ => rfl
  exact canon_kernel (toCanonical cm).2 (cm.map Prod.fst)
    (pySorted (symKeyLe (toCanonical cm).2) (cm.map Prod.fst))
    ((pySorted (symKeyLe (toCanonical cm).2) (cm.map Prod.fst)).map
      fun s => (s, lookup0 (toCanonical cm).2 s))
    (toCanonical cm).1 hnd hfst rfl rfl rfl
    (by rw [hsnd]; exact hkraft) (by rw [hsnd]; exact hpos)

/-! ### Claim C3/C4 support: serialization round-trip of the header pairs -/

theorem obind_congr {α β : Type} {x : Option α} {a : α} (h : x = some a)
    (f : α → Option β) : x >>= f = f a := by
  rw [h]
  rfl

theorem obind_eq_some {α β : Type} {x : Option α} {f : α → Option β} {b : β}
    (h : x >>= f = some b) : ∃ a, x = some a ∧ f a = some b := by
  cases x with
  | none =>
    have h' : (none : Option β) = some b := h
    exact Option.noConfusion h'
  | some a => exact ⟨a, rfl, h⟩

theorem toBytesBE_length (w n : ℕ) (l : List ℕ) (h : toBytesBE w n = some l) :
    l.length = w := by
  rw [toBytesBE] at h
  split at h
  · rw [← Option.some.inj h, List.length_map, List.length_range]
  · exact Option.noConfusion h

theorem flatMap_pair_length (ps : List (ℕ × ℕ)) :
    (ps.flatMap fun p => [p.1, p.2]).length = 2 * ps.length := by
  induction ps with
  | nil => rfl
  | cons q t ih =>
    rw [List.flatMap_cons, List.length_append, ih]
    simp only [List.length_cons, List.length_nil]
    omega

theorem readPairs_spec (ps : List (ℕ × ℕ)) : ∀ pre post : List ℕ,
    readPairs (pre ++ ((ps.flatMap fun p => [p.1, p.2]) ++ post)) pre.length ps.length =
      some ps := by
  induction ps with
  | nil => intro pre post; rfl
  | cons q t ih =>
    intro pre post
    obtain ⟨s, l⟩ := q
    have hg1 : (pre ++ (((s, l) :: t).flatMap (fun p => [p.1, p.2]) ++ post)).get?
        pre.length = some s := by
      rw [List.get?_append_right (le_refl _), Nat.sub_self]
      rfl
    have hg2 : (pre ++ (((s, l) :: t).flatMap (fun p => [p.1, p.2]) ++ post)).get?
        (pre.length + 1) = some l := by
      rw [List.get?_append_right (by omega), Nat.add_sub_cancel_left]
      rfl
    have hre : pre ++ (((s, l) :: t).flatMap (fun p => [p.1, p.2]) ++ post) =
        (pre ++ [s, l]) ++ ((t.flatMap fun p => [p.1, p.2]) ++ post) := by
      simp [List.flatMap_cons]
    have hrec : readPairs (pre ++ (((s, l) :: t).flatMap (fun p => [p.1, p.2]) ++ post))
        (pre.length + 2) t.length = some t := by
      have h := ih (pre ++ [s, l]) post
      have hlen2 : (pre ++ [s, l]).length = pre.length + 2 := by simp
      rw [hlen2, ← hre] at h
      exact h
    rw [List.length_cons, readPairs]
    simp only [obind_congr hg1, obind_congr hg2, obind_congr hrec]
    rfl

theorem foldlM_byte2_spec (lengths : List (ℕ × ℕ)) (canon : List (ℕ × List Bool)) :
    ∀ acc out : List ℕ,
    canon.foldlM (fun acc p => do
        let pb ← byte2 p.1 (lookup0 lengths p.1)
        pure (acc ++ pb)) acc = some out →
    out = acc ++ (canon.map fun p => (p.1, lookup0 lengths p.1)).flatMap
      (fun q => [q.1, q.2]) := by
  induction canon with
  | nil =>
    intro acc out h
    have h' : some acc = some out := h
    rw [← Option.some.inj h']
    simp
  | cons p t ih =>
    intro acc out h
    rw [List.foldlM_cons] at h
    obtain ⟨b1, hb1, h⟩ := obind_eq_some h
    obtain ⟨pb, hpb, hpure⟩ := obind_eq_some hb1
    have hb1' : b1 = acc ++ pb := (Option.some.inj hpure).symm
    rw [byte2] at hpb
    split at hpb
    · have hpbv : pb = [p.1, lookup0 lengths p.1] := (Option.some.inj hpb).symm
      subst hb1'
      have := ih (acc ++ pb) out h
      rw [this, hpbv, List.map_cons, List.flatMap_cons]
      simp [List.append_assoc]
    · exact Option.noConfusion hpb

theorem dictInsert_append {α β : Type} [DecidableEq α] (d : List (α × β)) (k : α) (v : β)
    (h : k ∉ d.map Prod.fst) : dictInsert d k v = d ++ [(k, v)] := by
  induction d with
  | nil => rfl
  | cons e t ih =>
    obtain ⟨k', v'⟩ := e
    rw [List.map_cons] at h
    simp only [List.mem_cons, not_or] at h
    obtain ⟨h1, h2⟩ := h
    rw [dictInsert, if_neg (fun hh => h1 hh.symm), ih h2]
    rfl

theorem decTableLoop_eq (ps : List (ℕ × ℕ)) : ∀ (c p : ℕ) (table : List (List Bool × ℕ)),
    (table.map Prod.fst ++ (canonLoop ps c p).map Prod.snd).Nodup →
    decTableLoop ps c p table = table ++ (canonLoop ps c p).map Prod.swap := by
  induction ps with
  | nil =>
    intro c p table _
    rw [decTableLoop, canonLoop]
    simp
  | cons q t ih =>
    intro c p table hnd
    obtain ⟨sym, ln⟩ := q
    rw [canonLoop, List.map_cons] at hnd
    rw [decTableLoop, canonLoop]
    have hsh : (if ln ≠ p then c <<< (ln - p) else c) = c <<< (ln - p) := by
      by_cases hlp : ln = p
      · subst hlp
        rw [if_neg (by omega), Nat.sub_self, Nat.shiftLeft_zero]
      · rw [if_pos hlp]
    rw [hsh]
    have hkey_notin : fmtBinPad (c <<< (ln - p)) ln ∉ table.map Prod.fst := by
      intro hmem
      have hdisj := (List.nodup_append.mp hnd).2.2
      exact hdisj hmem (List.mem_cons_self _ _)
    rw [dictInsert_append table _ sym hkey_notin]
    have hnd' : ((table ++ [(fmtBinPad (c <<< (ln - p)) ln, sym)]).map Prod.fst ++
        (canonLoop t (c <<< (ln - p) + 1) ln).map Prod.snd).Nodup := by
      rw [List.map_append, List.append_assoc]
      simp only [List.map_cons, List.map_nil, List.singleton_append]
      exact hnd
    rw [ih (c <<< (ln - p) + 1) ln _ hnd']
    simp [List.append_assoc]

theorem decodeTable_parse (n4 : List ℕ) (cnt : ℕ) (ps : List (ℕ × ℕ)) (post : List ℕ)
    (h4 : n4.length = 4) (hcnt : cnt = ps.length) :
    decodeTable (n4 ++ cnt :: ((ps.flatMap fun p => [p.1, p.2]) ++ post)) =
      some (decTableLoop (pySorted pairLe ps) 0 0 []) := by
  subst hcnt
  have hg4 : (n4 ++ ps.length :: ((ps.flatMap fun p => [p.1, p.2]) ++ post)).get? 4 =
      some ps.length := by
    rw [List.get?_append_right (by omega), show 4 - n4.length = 0 from by omega]
    rfl
  have hrp : readPairs (n4 ++ ps.length :: ((ps.flatMap fun p => [p.1, p.2]) ++ post)) 5
      ps.length = some ps := by
    have h := readPairs_spec ps (n4 ++ [ps.length]) post
    have hlen5 : (n4 ++ [ps.length]).length = 5 := by simp [h4]
    have hre : (n4 ++ [ps.length]) ++ ((ps.flatMap fun p => [p.1, p.2]) ++ post) =
        n4 ++ ps.length :: ((ps.flatMap fun p => [p.1, p.2]) ++ post) := by
      simp
    rw [hlen5, hre] at h
    exact h
  rw [decodeTable]
  simp only [obind_congr hg4, obind_congr hrp]
  rfl

/-- `canon_core` for the code map of a Huffman tree with distinct leaf symbols
and a branch at the root. -/
theorem canon_facts (root : HTree)
    (hnd : (tleaves root).Nodup)
    (hbr : ∃ f a b, root = HTree.branch f a b) :
    (((toCanonical (buildCodeMap root [])).1.map Prod.fst).Nodup) ∧
    (((toCanonical (buildCodeMap root [])).1.map Prod.snd).Nodup) ∧
    (∀ p ∈ (toCanonical (buildCodeMap root [])).1, 1 ≤ p.2.length) ∧
    (∀ p ∈ (toCanonical (buildCodeMap root [])).1,
      ∀ q ∈ (toCanonical (buildCodeMap root [])).1, p.1 ≠ q.1 → ¬ listPref p.2 q.2) ∧
    List.Pairwise (fun p q => pairLe p q = true)
      ((toCanonical (buildCodeMap root [])).1.map fun p =>
        (p.1, lookup0 (toCanonical (buildCodeMap root [])).2 p.1)) ∧
    canonLoop ((toCanonical (buildCodeMap root [])).1.map fun p =>
        (p.1, lookup0 (toCanonical (buildCodeMap root [])).2 p.1)) 0 0 =
      (toCanonical (buildCodeMap root [])).1 := by
  obtain ⟨f, aT, bT, hb⟩ := hbr
  refine canon_core (buildCodeMap root []) ?_ ?_ ?_
  · rw [buildCodeMap_keys root []]
    exact hnd
  · rw [hb, buildCodeMap_depths_root]
    exact kraftQ_tdepths _
  · intro d hd
    rw [hb, buildCodeMap_depths_root] at hd
    exact tdepths_branch_pos f aT bT d hd

/-- Feeding `decBitsLoop` a bit string whose proper nonempty initial segments
all miss the table and which itself hits the table at `sym` consumes exactly
that string, emits `sym`, and resets the accumulator (or stops at `L`). -/
theorem decBitsLoop_consume (table : List (List Bool × ℕ)) (L : ℕ) (sym : ℕ)
    (code : List Bool) (rest : List Bool) (out : List ℕ) : ∀ cur : List Bool,
    code ≠ [] →
    (∀ p t, p ++ t = code → t ≠ [] → p ≠ [] → table.lookup (cur ++ p) = none) →
    table.lookup (cur ++ code) = some sym →
    decBitsLoop table L (code ++ rest) out cur =
      if out.length + 1 = L then out ++ [sym]
      else decBitsLoop table L rest (out ++ [sym]) [] := by
  induction code with
  | nil => intro cur hne; exact absurd rfl hne
  | cons b code' ih =>
    intro cur _ hmid hlast
    cases code' with
    | nil =>
      rw [List.cons_append, List.nil_append, decBitsLoop]
      simp only [hlast]
      simp [List.length_append]
    | cons c cs =>
      rw [List.cons_append, decBitsLoop]
      have hb1 : table.lookup (cur ++ [b]) = none :=
        hmid [b] (c :: cs) rfl (List.cons_ne_nil c cs) (List.cons_ne_nil b [])
      simp only [hb1]
      have ihh := ih (cur ++ [b]) (List.cons_ne_nil c cs) ?_ ?_
      · exact ihh
      · intro p t hpt ht hp
        rw [List.append_assoc, List.singleton_append]
        exact hmid (b :: p) t (by rw [← hpt]; rfl) ht (List.cons_ne_nil b p)
      · rw [List.append_assoc, List.singleton_append]
        exact hlast

/-- C4 content, from the leaf-level facts about the root tree. -/
theorem claim4_pre (root : HTree)
    (hnd : (tleaves root).Nodup)
    (hbr : ∃ f a b, root = HTree.branch f a b) :
    (∀ p ∈ (toCanonical (buildCodeMap root [])).1,
      ∀ q ∈ (toCanonical (buildCodeMap root [])).1, p.1 ≠ q.1 → ¬ listPref p.2 q.2) ∧
    (∀ p ∈ (toCanonical (buildCodeMap root [])).1, ∀ (rest : List Bool) (out : List ℕ) (L : ℕ),
      decBitsLoop ((toCanonical (buildCodeMap root [])).1.map Prod.swap) L (p.2 ++ rest) out [] =
        if out.length + 1 = L then out ++ [p.1]
        else decBitsLoop ((toCanonical (buildCodeMap root [])).1.map Prod.swap) L rest
          (out ++ [p.1]) []) := by
  obtain ⟨hF1, hF2, hF3, hF4, -, -⟩ := canon_facts root hnd hbr
  refine ⟨hF4, ?_⟩
  intro p hp rest out L
  have hkeys : ((toCanonical (buildCodeMap root [])).1.map Prod.swap).map Prod.fst =
      (toCanonical (buildCodeMap root [])).1.map Prod.snd := by
    rw [List.map_map]
    exact List.map_congr_left fun a _ => rfl
  have hlook : ((toCanonical (buildCodeMap root [])).1.map Prod.swap).lookup p.2 =
      some p.1 := by
    refine lookup_of_mem_nodup _ p.2 p.1 (by rw [hkeys]; exact hF2) ?_
    exact List.mem_map_of_mem Prod.swap hp
  have hnone : ∀ pre t, pre ++ t = p.2 → t ≠ [] → pre ≠ [] →
      ((toCanonical (buildCodeMap root [])).1.map Prod.swap).lookup pre = none := by
    intro pre t hpt ht hpre
    refine lookup_none_of_forall _ _ ?_
    intro e he hek
    obtain ⟨q, hq, rfl⟩ := List.mem_map.mp he
    have hek' : q.2 = pre := hek
    have hqp : listPref q.2 p.2 := ⟨t, by rw [hek']; exact hpt⟩
    by_cases hqq : q.1 = p.1
    · have hqp' : q = p := fst_nodup_inj hF1 hq hp hqq
      have hp2 : p.2 = pre := by rw [← hqp']; exact hek'
      have hcancel : pre ++ t = pre ++ [] := by rw [hpt, hp2, List.append_nil]
      exact ht (List.append_cancel_left hcancel)
    · exact hF4 q hq p hp hqq hqp
  have hne : p.2 ≠ [] := by
    have h1 := hF3 p hp
    intro hh
    rw [hh] at h1
    simp at h1
  refine decBitsLoop_consume _ L p.1 p.2 rest out [] hne ?_ ?_
  · intro pre t hpt ht hpre
    rw [List.nil_append]
    exact hnone pre t hpt ht hpre
  · rw [List.nil_append]
    exact hlook

/-- C3 content, from the leaf-level facts and a successful encoder run. -/
theorem claim3_pre (data blob : List ℕ) (root : HTree)
    (h2 : 2 ≤ (counter data).length)
    (hnd : (tleaves root).Nodup)
    (hbr : ∃ f a b, root = HTree.branch f a b)
    (hroot : buildTree (counter data) = some root)
    (hblob : hEncode data = some blob) :
    decodeTable blob = some ((toCanonical (buildCodeMap root [])).1.map Prod.swap) ∧
    (∀ s c, (s, c) ∈ (toCanonical (buildCodeMap root [])).1 ↔
      (c, s) ∈ (toCanonical (buildCodeMap root [])).1.map Prod.swap) ∧
    ∀ junk : List ℕ,
      decodeTable (blob.take (5 + 2 * (toCanonical (buildCodeMap root [])).1.length) ++ junk) =
        decodeTable blob := by
  obtain ⟨hF1, hF2, hF3, hF4, hF5, hF6⟩ := canon_facts root hnd hbr
  have hne : data ≠ [] := by
    intro hh
    rw [hh] at h2
    simp [counter] at h2
  have hne1 : ¬ (counter data).length = 1 := by omega
  simp only [hEncode, if_neg hne, if_neg hne1] at hblob
  obtain ⟨root', hroot', hblob⟩ := obind_eq_some hblob
  rw [hroot] at hroot'
  have hrr : root' = root := (Option.some.inj hroot').symm
  subst hrr
  obtain ⟨n4, hn4, hblob⟩ := obind_eq_some hblob
  obtain ⟨cntB, hcntB, hblob⟩ := obind_eq_some hblob
  obtain ⟨pairsB, hpairsB, hblob⟩ := obind_eq_some hblob
  obtain ⟨cb2, hcb2, hblob⟩ := obind_eq_some hblob
  obtain ⟨plB, hplB, hblob⟩ := obind_eq_some hblob
  obtain ⟨pb4, hpb4, hblob⟩ := obind_eq_some hblob
  have hblobeq : blob = n4 ++ cntB ++ pairsB ++ cb2 ++
      packBits ((toCanonical (buildCodeMap root' [])).1.foldl (fun acc p => acc ++ p.2) []) ++
      pb4 ++ packBits plB := (Option.some.inj hblob).symm
  have hcnt_val : cntB = [(toCanonical (buildCodeMap root' [])).1.length] := by
    rw [byte1] at hcntB
    split at hcntB
    · exact (Option.some.inj hcntB).symm
    · exact Option.noConfusion hcntB
  have hpairs_val : pairsB = ((toCanonical (buildCodeMap root' [])).1.map fun p =>
      (p.1, lookup0 (toCanonical (buildCodeMap root' [])).2 p.1)).flatMap
      (fun q => [q.1, q.2]) := by
    have h := foldlM_byte2_spec (toCanonical (buildCodeMap root' [])).2
      (toCanonical (buildCodeMap root' [])).1 [] pairsB hpairsB
    rw [h, List.nil_append]
  have h4len : n4.length = 4 := toBytesBE_length 4 data.length n4 hn4
  have hshape : blob = n4 ++ ((toCanonical (buildCodeMap root' [])).1.length ::
      ((((toCanonical (buildCodeMap root' [])).1.map fun p =>
          (p.1, lookup0 (toCanonical (buildCodeMap root' [])).2 p.1)).flatMap
          (fun q => [q.1, q.2])) ++
        (cb2 ++
          (packBits ((toCanonical (buildCodeMap root' [])).1.foldl
            (fun acc p => acc ++ p.2) []) ++ (pb4 ++ packBits plB))))) := by
    rw [hblobeq, hcnt_val, hpairs_val]
    simp only [List.append_assoc, List.singleton_append, List.cons_append, List.nil_append]
  have hptot : ∀ p q : ℕ × ℕ, pairLe p q ∨ pairLe q p := by
    intro p q
    simp only [pairLe, decide_eq_true_eq]
    omega
  have hptrans : ∀ p q r : ℕ × ℕ, pairLe p q → pairLe q r → pairLe p r := by
    intro p q r h1 h2
    simp only [pairLe, decide_eq_true_eq] at h1 h2 ⊢
    omega
  have hpanti : ∀ p q : ℕ × ℕ, pairLe p q → pairLe q p → p = q := by
    intro p q h1 h2
    obtain ⟨pa, pb⟩ := p
    obtain ⟨qa, qb⟩ := q
    simp only [pairLe, decide_eq_true_eq] at h1 h2
    simp only [Prod.mk.injEq]
    omega
  have hsorted_eq : pySorted pairLe ((toCanonical (buildCodeMap root' [])).1.map fun p =>
      (p.1, lookup0 (toCanonical (buildCodeMap root' [])).2 p.1)) =
      ((toCanonical (buildCodeMap root' [])).1.map fun p =>
        (p.1, lookup0 (toCanonical (buildCodeMap root' [])).2 p.1)) :=
    pySorted_eq_self pairLe hptot hptrans hpanti _ hF5
  have htable : decTableLoop ((toCanonical (buildCodeMap root' [])).1.map fun p =>
      (p.1, lookup0 (toCanonical (buildCodeMap root' [])).2 p.1)) 0 0 [] =
      (toCanonical (buildCodeMap root' [])).1.map Prod.swap := by
    have hndkeys : (([] : List (List Bool × ℕ)).map Prod.fst ++
        (canonLoop ((toCanonical (buildCodeMap root' [])).1.map fun p =>
          (p.1, lookup0 (toCanonical (buildCodeMap root' [])).2 p.1)) 0 0).map
          Prod.snd).Nodup := by
      rw [hF6]
      simp only [List.map_nil, List.nil_append]
      exact hF2
    rw [decTableLoop_eq _ 0 0 [] hndkeys, hF6, List.nil_append]
  have hparse1 := decodeTable_parse n4 ((toCanonical (buildCodeMap root' [])).1.length)
    ((toCanonical (buildCodeMap root' [])).1.map fun p =>
      (p.1, lookup0 (toCanonical (buildCodeMap root' [])).2 p.1))
    (cb2 ++ (packBits ((toCanonical (buildCodeMap root' [])).1.foldl
      (fun acc p => acc ++ p.2) []) ++ (pb4 ++ packBits plB)))
    h4len (by rw [List.length_map])
  have hdec : decodeTable blob = some ((toCanonical (buildCodeMap root' [])).1.map Prod.swap) := by
    rw [hshape, hparse1, hsorted_eq, htable]
  refine ⟨hdec, ?_, ?_⟩
  · intro s c
    constructor
    · intro h
      exact List.mem_map_of_mem Prod.swap h
    · intro h
      obtain ⟨q, hq, hsw⟩ := List.mem_map.mp h
      have hq' := congrArg Prod.swap hsw
      rw [Prod.swap_swap] at hq'
      rw [hq'] at hq
      exact hq
  · intro junk
    have hflat_len : ((((toCanonical (buildCodeMap root' [])).1.map fun p =>
        (p.1, lookup0 (toCanonical (buildCodeMap root' [])).2 p.1)).flatMap
        (fun q => [q.1, q.2])).length) =
        2 * (toCanonical (buildCodeMap root' [])).1.length := by
      rw [flatMap_pair_length, List.length_map]
    have htake : blob.take (5 + 2 * (toCanonical (buildCodeMap root' [])).1.length) =
        n4 ++ ((toCanonical (buildCodeMap root' [])).1.length ::
          (((toCanonical (buildCodeMap root' [])).1.map fun p =>
            (p.1, lookup0 (toCanonical (buildCodeMap root' [])).2 p.1)).flatMap
            (fun q => [q.1, q.2]))) := by
      rw [hshape]
      rw [show 5 + 2 * (toCanonical (buildCodeMap root' [])).1.length =
          n4.length + (2 * (toCanonical (buildCodeMap root' [])).1.length + 1) from by omega]
      rw [List.take_append, List.take_succ_cons, List.take_left' hflat_len]
    have hre : (n4 ++ ((toCanonical (buildCodeMap root' [])).1.length ::
        (((toCanonical (buildCodeMap root' [])).1.map fun p =>
          (p.1, lookup0 (toCanonical (buildCodeMap root' [])).2 p.1)).flatMap
          (fun q => [q.1, q.2])))) ++ junk =
        n4 ++ ((toCanonical (buildCodeMap root' [])).1.length ::
          ((((toCanonical (buildCodeMap root' [])).1.map fun p =>
            (p.1, lookup0 (toCanonical (buildCodeMap root' [])).2 p.1)).flatMap
            (fun q => [q.1, q.2])) ++ junk)) := by
      simp [List.append_assoc]
    have hparse2 := decodeTable_parse n4 ((toCanonical (buildCodeMap root' [])).1.length)
      ((toCanonical (buildCodeMap root' [])).1.map fun p =>
        (p.1, lookup0 (toCanonical (buildCodeMap root' [])).2 p.1))
      junk h4len (by rw [List.length_map])
    rw [htake, hre, hparse2, hsorted_eq, htable, hdec]

/-- C4: for every input with at least two distinct symbols, the canonical code
map the Huffman encoder produces is prefix-free — no symbol's code is an
initial segment of a different symbol's code — and therefore the decoder's
bit-accumulation loop, fed the code of any symbol, consumes exactly that code
and emits exactly that symbol before starting afresh (stopping once the
declared output length is reached). -/
theorem claim4_canonical_codes_unambiguous (data : List ℕ) (root : HTree)
    (h2 : 2 ≤ (counter data).length)
    (hroot : buildTree (counter data) = some root) :
    (∀ p ∈ (toCanonical (buildCodeMap root [])).1,
      ∀ q ∈ (toCanonical (buildCodeMap root [])).1, p.1 ≠ q.1 → ¬ listPref p.2 q.2) ∧
    (∀ p ∈ (toCanonical (buildCodeMap root [])).1, ∀ (rest : List Bool) (out : List ℕ) (L : ℕ),
      decBitsLoop ((toCanonical (buildCodeMap root [])).1.map Prod.swap) L (p.2 ++ rest) out [] =
        if out.length + 1 = L then out ++ [p.1]
        else decBitsLoop ((toCanonical (buildCodeMap root [])).1.map Prod.swap) L rest
          (out ++ [p.1]) []) := by
  obtain ⟨root', hroot', hperm, hbr⟩ := buildTree_spec (counter data) h2
  rw [hroot] at hroot'
  have hrr : root' = root := (Option.some.inj hroot').symm
  subst hrr
  exact claim4_pre _ (hperm.nodup_iff.mpr (nodup_keys_counter data)) hbr

/-- Witness for C4 on the input `[0, 1, 1]`, whose tree is a root branch with
leaves `0` (frequency 1) and `1` (frequency 2). -/
theorem claim4_canonical_codes_unambiguous_witness :
    (2 ≤ (counter [0, 1, 1]).length ∧
      buildTree (counter [0, 1, 1]) =
        some (HTree.branch 3 (HTree.leaf 1 0) (HTree.leaf 2 1))) ∧
    ((∀ p ∈ (toCanonical (buildCodeMap (HTree.branch 3 (HTree.leaf 1 0) (HTree.leaf 2 1)) [])).1,
      ∀ q ∈ (toCanonical (buildCodeMap (HTree.branch 3 (HTree.leaf 1 0) (HTree.leaf 2 1)) [])).1,
        p.1 ≠ q.1 → ¬ listPref p.2 q.2) ∧
    (∀ p ∈ (toCanonical (buildCodeMap (HTree.branch 3 (HTree.leaf 1 0) (HTree.leaf 2 1)) [])).1,
      ∀ (rest : List Bool) (out : List ℕ) (L : ℕ),
      decBitsLoop ((toCanonical (buildCodeMap
          (HTree.branch 3 (HTree.leaf 1 0) (HTree.leaf 2 1)) [])).1.map Prod.swap) L
          (p.2 ++ rest) out [] =
        if out.length + 1 = L then out ++ [p.1]
        else decBitsLoop ((toCanonical (buildCodeMap
            (HTree.branch 3 (HTree.leaf 1 0) (HTree.leaf 2 1)) [])).1.map Prod.swap) L rest
          (out ++ [p.1]) [])) :=
  ⟨⟨by decide, rfl⟩,
    claim4_canonical_codes_unambiguous [0, 1, 1]
      (HTree.branch 3 (HTree.leaf 1 0) (HTree.leaf 2 1)) (by decide) rfl⟩

/-- C3: for every input with at least two distinct symbols on which the encoder
succeeds, the code-to-symbol table `decode` rebuilds from the header's
(symbol, length) pairs — sorted by (length, symbol) and replayed through the
canonicalization loop — is exactly the swapped (inverse) association list of
the encoder's symbol-to-code canonical map; and the table depends only on the
first `5 + 2·leafCnt` header bytes, so the serialized canonical-bit-pattern
blob that follows is not consumed to rebuild it. -/
theorem claim3_decode_table_inverse (data blob : List ℕ) (root : HTree)
    (h2 : 2 ≤ (counter data).length)
    (hroot : buildTree (counter data) = some root)
    (hblob : hEncode data = some blob) :
    decodeTable blob = some ((toCanonical (buildCodeMap root [])).1.map Prod.swap) ∧
    (∀ s c, (s, c) ∈ (toCanonical (buildCodeMap root [])).1 ↔
      (c, s) ∈ (toCanonical (buildCodeMap root [])).1.map Prod.swap) ∧
    ∀ junk : List ℕ,
      decodeTable (blob.take (5 + 2 * (toCanonical (buildCodeMap root [])).1.length) ++ junk) =
        decodeTable blob := by
  obtain ⟨root', hroot', hperm, hbr⟩ := buildTree_spec (counter data) h2
  rw [hroot] at hroot'
  have hrr : root' = root := (Option.some.inj hroot').symm
  subst hrr
  exact claim3_pre data blob _ h2 (hperm.nodup_iff.mpr (nodup_keys_counter data)) hbr hroot hblob

/-- Witness for C3 on the input `[0, 1, 1]` and its actual encoder output. -/
theorem claim3_decode_table_inverse_witness :
    (2 ≤ (counter [0, 1, 1]).length ∧
      buildTree (counter [0, 1, 1]) =
        some (HTree.branch 3 (HTree.leaf 1 0) (HTree.leaf 2 1)) ∧
      hEncode [0, 1, 1] = some [0, 0, 0, 3, 2, 0, 1, 1, 1, 0, 2, 64, 0, 0, 0, 3, 96]) ∧
    (decodeTable [0, 0, 0, 3, 2, 0, 1, 1, 1, 0, 2, 64, 0, 0, 0, 3, 96] =
      some ((toCanonical (buildCodeMap
        (HTree.branch 3 (HTree.leaf 1 0) (HTree.leaf 2 1)) [])).1.map Prod.swap) ∧
    (∀ s c, (s, c) ∈ (toCanonical (buildCodeMap
        (HTree.branch 3 (HTree.leaf 1 0) (HTree.leaf 2 1)) [])).1 ↔
      (c, s) ∈ (toCanonical (buildCodeMap
        (HTree.branch 3 (HTree.leaf 1 0) (HTree.leaf 2 1)) [])).1.map Prod.swap) ∧
    ∀ junk : List ℕ,
      decodeTable (([0, 0, 0, 3, 2, 0, 1, 1, 1, 0, 2, 64, 0, 0, 0, 3, 96] : List ℕ).take
          (5 + 2 * (toCanonical (buildCodeMap
            (HTree.branch 3 (HTree.leaf 1 0) (HTree.leaf 2 1)) [])).1.length) ++ junk) =
        decodeTable [0, 0, 0, 3, 2, 0, 1, 1, 1, 0, 2, 64, 0, 0, 0, 3, 96]) :=
  ⟨⟨by decide, rfl, rfl⟩,
    claim3_decode_table_inverse [0, 1, 1] [0, 0, 0, 3, 2, 0, 1, 1, 1, 0, 2, 64, 0, 0, 0, 3, 96]
      (HTree.branch 3 (HTree.leaf 1 0) (HTree.leaf 2 1)) (by decide) rfl rfl⟩
